import Mathlib

/-!
Verification of the sliced-store repository (`src/index.ts`, `src/lib/signal.ts`)
against its natural-language specification.

The development is a shallow embedding:

* `Sig` — the `Signal` class of `src/lib/signal.ts`.  The registry
  (`private bindings: Set<BindingEntry>`) is modelled as a list of entry
  identifiers in insertion order; an environment `SigEnv` gives each entry its
  listener behaviour (`act`) and its `once` flag.  Listener behaviour is
  limited to returning normally, throwing, or performing one re-entrant
  `emit` on the same signal (the behaviours exercised by the claims);
  re-entrant emission depth is bounded by `fuel`.
* `St` — the `SliceHandle` / `SlicedStore` classes of `src/index.ts`.
  Field values are JS values modelled as `Option Int` (`none` = `undefined`);
  JS objects are association lists in key-insertion order; `structuredClone`
  of such data is the identity on the value content, so it is dropped where
  the source applies it to plain data.  Emitter firings are modelled as an
  event trace rather than listener invocation (listeners are the concern of
  the `Sig` model).
* `DC` — a value model with object-identity tags, used for the claims about
  deep-copy reads, where `structuredClone` allocates fresh identities.
-/

namespace Sig

/-- What a listener does when invoked: return normally, throw an error
message, or perform one re-entrant `emit` of a new value on the same
signal. -/
inductive Action where
  | ok : Action
  | throwE : String → Action
  | reemit : Nat → Action
deriving DecidableEq

/-- The error thrown by an action, if any. -/
def Action.errOf : Action → Option String
  | .throwE s => some s
  | _ => none

/-- Whether the action performs a re-entrant emit. -/
def Action.isReemit : Action → Bool
  | .reemit _ => true
  | _ => false

/-- Listener environment: for each entry identifier, the listener's behaviour
as a function of the emitted value, and whether the entry was registered via
`once` (the `once` field of `BindingEntry`). -/
structure SigEnv where
  act : Nat → Nat → Action
  onceF : Nat → Bool

/-- Result of an `emit` pass: the invocation trace (entry id, value it was
invoked with, in invocation order), the registry afterwards, and the first
error raised by a listener (re-raised by `emit`), if any. -/
structure EmitRes where
  tr : List (Nat × Nat)
  B : List Nat
  err : Option String
deriving DecidableEq

/-- The `for (const entry of this.bindings)` loop of `Signal.emit`
(src/lib/signal.ts lines 78-97).  `B` is the live registry, `q` the
remainder of the iteration snapshot; JS `Set` iteration visits exactly the
entries still present when reached, so each queued id is checked against the
live registry.  A `once` entry is deleted from the registry *before* its
listener is invoked.  A listener that throws has its error recorded if it is
the first; a re-entrant emit is performed by `reentry` on the live registry,
and an error escaping it is caught like a directly-thrown one. -/
def emitLoop (env : SigEnv) (reentry : Nat → List Nat → EmitRes) (v : Nat) :
    List Nat → List Nat → EmitRes
  | B, [] => ⟨[], B, none⟩
  | B, i :: q =>
    if i ∈ B then
      let B1 := if env.onceF i then B.erase i else B
      match env.act i v with
      | .ok =>
          let r := emitLoop env reentry v B1 q
          ⟨(i, v) :: r.tr, r.B, r.err⟩
      | .throwE s =>
          let r := emitLoop env reentry v B1 q
          ⟨(i, v) :: r.tr, r.B, some s⟩
      | .reemit v2 =>
          let inner := reentry v2 B1
          let r := emitLoop env reentry v inner.B q
          ⟨(i, v) :: (inner.tr ++ r.tr), r.B, inner.err.orElse (fun _ => r.err)⟩
    else
      emitLoop env reentry v B q

/-- `Signal.emit` with a bound on re-entrant emission depth: at depth 0 a
re-entrant emit is not expanded (it invokes nothing). -/
def emitGo (env : SigEnv) : Nat → Nat → List Nat → List Nat → EmitRes
  | 0, v, B, q => emitLoop env (fun _ B2 => ⟨[], B2, none⟩) v B q
  | fuel + 1, v, B, q => emitLoop env (fun v2 B2 => emitGo env fuel v2 B2 B2) v B q

/-- One call of `Signal.emit env … v` on registry `B`: the iteration snapshot
is the registry itself. -/
def sigEmit (env : SigEnv) (fuel v : Nat) (B : List Nat) : EmitRes :=
  emitGo env fuel v B B

end Sig

namespace Sig

/-- In an `emit` pass in which no queued listener re-emits, every queued entry
still registered is invoked exactly once in queue order, and the first error
raised is the one reported. -/
theorem emitLoop_tr_err (env : SigEnv) (reentry : Nat → List Nat → EmitRes) (v : Nat) :
    ∀ (q B : List Nat), q.Nodup → (∀ i ∈ q, i ∈ B) →
    (∀ i ∈ q, (env.act i v).isReemit = false) →
    (emitLoop env reentry v B q).tr = q.map (fun i => (i, v)) ∧
    (emitLoop env reentry v B q).err =
      (q.filterMap (fun i => (env.act i v).errOf)).head? := by
  intro q
  induction q with
  | nil => intro B _ _ _; exact ⟨rfl, rfl⟩
  | cons i q ih =>
    intro B hnd hmem hnr
    have hiB : i ∈ B := hmem i (List.mem_cons_self _ _)
    have hni : i ∉ q := (List.nodup_cons.mp hnd).1
    have hnd' : q.Nodup := (List.nodup_cons.mp hnd).2
    have hmem' : ∀ j ∈ q, j ∈ (if env.onceF i then B.erase i else B) := by
      intro j hj
      have hjB := hmem j (List.mem_cons_of_mem _ hj)
      by_cases ho : env.onceF i
      · have hne : j ≠ i := fun h => hni (h ▸ hj)
        simpa [ho] using (List.mem_erase_of_ne hne).mpr hjB
      · simpa [ho] using hjB
    have hnr' : ∀ j ∈ q, (env.act j v).isReemit = false :=
      fun j hj => hnr j (List.mem_cons_of_mem _ hj)
    obtain ⟨ihtr, iherr⟩ := ih _ hnd' hmem' hnr'
    cases hact : env.act i v with
    | ok => simp [emitLoop, hiB, hact, ihtr, iherr, Action.errOf]
    | throwE s => simp [emitLoop, hiB, hact, ihtr, iherr, Action.errOf]
    | reemit v2 =>
      have hr := hnr i (List.mem_cons_self _ _)
      rw [hact] at hr
      simp [Action.isReemit] at hr

end Sig

/-- C3 — Emitter error isolation (`Signal.emit`, src/lib/signal.ts lines
78-97): for every `emit(value)` call whose listeners return or throw (no
re-entrant emits), every listener registered at the start of the call is
invoked exactly once with the value, in registration order, even when one or
more listeners raise; after all have run, the first raised error (and only
that one) is re-raised, and if no listener raises, `emit` returns
normally (`err = none`). -/
theorem C3_emitter_error_isolation (env : Sig.SigEnv) (fuel v : Nat)
    (B : List Nat) (hnd : B.Nodup)
    (hnr : ∀ i ∈ B, (env.act i v).isReemit = false) :
    (Sig.sigEmit env fuel v B).tr = B.map (fun i => (i, v)) ∧
    (Sig.sigEmit env fuel v B).err =
      (B.filterMap (fun i => (env.act i v).errOf)).head? := by
  cases fuel with
  | zero => exact Sig.emitLoop_tr_err env _ v B B hnd (fun i h => h) hnr
  | succ fuel => exact Sig.emitLoop_tr_err env _ v B B hnd (fun i h => h) hnr

/-- Environment used by the C3 witness: listener 1 returns, listeners 2 and 3
throw distinct errors, nothing is `once`. -/
def c3Env : Sig.SigEnv :=
  ⟨fun i _ => if i = 2 then .throwE "boom" else if i = 3 then .throwE "later" else .ok,
   fun _ => false⟩

/-- Witness for C3 at a concrete signal: all three listeners run in order and
the first error is the one re-raised. -/
theorem C3_emitter_error_isolation_witness :
    (Sig.sigEmit c3Env 0 7 [1, 2, 3]).tr = [(1, 7), (2, 7), (3, 7)] ∧
    (Sig.sigEmit c3Env 0 7 [1, 2, 3]).err = some "boom" := by
  have h := C3_emitter_error_isolation c3Env 0 7 [1, 2, 3] (by decide)
    (by decide)
  simpa [c3Env, Sig.Action.errOf] using h

namespace Sig

/-- Number of invocations of entry `o` recorded in a trace. -/
def cnt (o : Nat) : List (Nat × Nat) → Nat
  | [] => 0
  | p :: tr => (if p.1 = o then 1 else 0) + cnt o tr

@[simp] theorem cnt_nil (o : Nat) : cnt o [] = 0 := rfl

@[simp] theorem cnt_cons (o : Nat) (p : Nat × Nat) (tr : List (Nat × Nat)) :
    cnt o (p :: tr) = (if p.1 = o then 1 else 0) + cnt o tr := rfl

@[simp] theorem cnt_append (o : Nat) (a b : List (Nat × Nat)) :
    cnt o (a ++ b) = cnt o a + cnt o b := by
  induction a with
  | nil => simp
  | cons p a ih => simp [ih]; omega

/-- Behaviour a re-entrant emit must have with respect to a `once` entry `o`:
it can only shrink the registry, and it either consumes `o` exactly once
(removing it) or leaves it untouched. -/
def OnceGood (o : Nat) (reentry : Nat → List Nat → EmitRes) : Prop :=
  ∀ v B, B.Nodup →
    (reentry v B).B ⊆ B ∧ (reentry v B).B.Nodup ∧
    (o ∉ B → cnt o (reentry v B).tr = 0 ∧ o ∉ (reentry v B).B) ∧
    (o ∈ B → (cnt o (reentry v B).tr = 1 ∧ o ∉ (reentry v B).B) ∨
             (cnt o (reentry v B).tr = 0 ∧ o ∈ (reentry v B).B))

/-- Core invariant of the emit loop for a `once` entry `o`: the registry only
shrinks, `o` is never invoked once it is out of the registry, is invoked at
most once while in it, and is invoked exactly once when it is still queued. -/
theorem emitLoop_once (env : SigEnv) (o : Nat) (ho : env.onceF o = true)
    (reentry : Nat → List Nat → EmitRes) (hre : OnceGood o reentry) (v : Nat) :
    ∀ (q B : List Nat), B.Nodup →
      (emitLoop env reentry v B q).B ⊆ B ∧
      (emitLoop env reentry v B q).B.Nodup ∧
      (o ∉ B → cnt o (emitLoop env reentry v B q).tr = 0 ∧
        o ∉ (emitLoop env reentry v B q).B) ∧
      (o ∈ B → (cnt o (emitLoop env reentry v B q).tr = 1 ∧
                 o ∉ (emitLoop env reentry v B q).B) ∨
               (cnt o (emitLoop env reentry v B q).tr = 0 ∧
                 o ∈ (emitLoop env reentry v B q).B)) ∧
      (o ∈ B → o ∈ q → cnt o (emitLoop env reentry v B q).tr = 1 ∧
        o ∉ (emitLoop env reentry v B q).B) := by
  intro q
  induction q with
  | nil =>
    intro B hnd
    refine ⟨fun x hx => hx, hnd, fun h => ⟨rfl, h⟩, fun h => Or.inr ⟨rfl, h⟩, ?_⟩
    intro _ h
    simp at h
  | cons i q ih =>
    intro B hnd
    by_cases hiB : i ∈ B
    · have hB1sub : (if env.onceF i then B.erase i else B) ⊆ B := by
        by_cases h1 : env.onceF i <;> simp [h1, List.erase_subset]
      have hB1nd : (if env.onceF i then B.erase i else B).Nodup := by
        by_cases h1 : env.onceF i <;> simp [h1, hnd, List.Nodup.erase]
      set B1 := if env.onceF i then B.erase i else B with hB1def
      cases hact : env.act i v with
      | ok =>
        obtain ⟨ihA, ihN, ihZ, ihM, ihQ⟩ := ih B1 hB1nd
        have hres : emitLoop env reentry v B (i :: q) =
            ⟨(i, v) :: (emitLoop env reentry v B1 q).tr,
             (emitLoop env reentry v B1 q).B,
             (emitLoop env reentry v B1 q).err⟩ := by
          simp [emitLoop, hiB, hact, hB1def]
        rw [hres]
        by_cases hio : i = o
        · subst hio
          have hoB1 : i ∉ B1 := by
            rw [hB1def, if_pos ho]
            intro hmem
            exact absurd ((hnd.mem_erase_iff).mp hmem).1 (by simp)
          obtain ⟨hz1, hz2⟩ := ihZ hoB1
          refine ⟨fun x hx => hB1sub (ihA hx), ihN, ?_, ?_, ?_⟩
          · intro h; exact absurd hiB h
          · intro _; exact Or.inl ⟨by simp [hz1], hz2⟩
          · intro _ _; exact ⟨by simp [hz1], hz2⟩
        · have hoB1iff : o ∈ B1 ↔ o ∈ B := by
            rw [hB1def]
            by_cases h1 : env.onceF i
            · simp [h1, List.mem_erase_of_ne (fun h => hio h.symm)]
            · simp [h1]
          refine ⟨fun x hx => hB1sub (ihA hx), ihN, ?_, ?_, ?_⟩
          · intro h
            obtain ⟨hz1, hz2⟩ := ihZ (fun hc => h (hoB1iff.mp hc))
            exact ⟨by simp [hio, hz1], hz2⟩
          · intro h
            rcases ihM (hoB1iff.mpr h) with ⟨h1, h2⟩ | ⟨h1, h2⟩
            · exact Or.inl ⟨by simp [hio, h1], h2⟩
            · exact Or.inr ⟨by simp [hio, h1], h2⟩
          · intro h hq
            rcases List.mem_cons.mp hq with h' | h'
            · exact absurd h'.symm hio
            · obtain ⟨h1, h2⟩ := ihQ (hoB1iff.mpr h) h'
              exact ⟨by simp [hio, h1], h2⟩
      | throwE s =>
        obtain ⟨ihA, ihN, ihZ, ihM, ihQ⟩ := ih B1 hB1nd
        have hres : emitLoop env reentry v B (i :: q) =
            ⟨(i, v) :: (emitLoop env reentry v B1 q).tr,
             (emitLoop env reentry v B1 q).B,
             some s⟩ := by
          simp [emitLoop, hiB, hact, hB1def]
        rw [hres]
        by_cases hio : i = o
        · subst hio
          have hoB1 : i ∉ B1 := by
            rw [hB1def, if_pos ho]
            intro hmem
            exact absurd ((hnd.mem_erase_iff).mp hmem).1 (by simp)
          obtain ⟨hz1, hz2⟩ := ihZ hoB1
          refine ⟨fun x hx => hB1sub (ihA hx), ihN, ?_, ?_, ?_⟩
          · intro h; exact absurd hiB h
          · intro _; exact Or.inl ⟨by simp [hz1], hz2⟩
          · intro _ _; exact ⟨by simp [hz1], hz2⟩
        · have hoB1iff : o ∈ B1 ↔ o ∈ B := by
            rw [hB1def]
            by_cases h1 : env.onceF i
            · simp [h1, List.mem_erase_of_ne (fun h => hio h.symm)]
            · simp [h1]
          refine ⟨fun x hx => hB1sub (ihA hx), ihN, ?_, ?_, ?_⟩
          · intro h
            obtain ⟨hz1, hz2⟩ := ihZ (fun hc => h (hoB1iff.mp hc))
            exact ⟨by simp [hio, hz1], hz2⟩
          · intro h
            rcases ihM (hoB1iff.mpr h) with ⟨h1, h2⟩ | ⟨h1, h2⟩
            · exact Or.inl ⟨by simp [hio, h1], h2⟩
            · exact Or.inr ⟨by simp [hio, h1], h2⟩
          · intro h hq
            rcases List.mem_cons.mp hq with h' | h'
            · exact absurd h'.symm hio
            · obtain ⟨h1, h2⟩ := ihQ (hoB1iff.mpr h) h'
              exact ⟨by simp [hio, h1], h2⟩
      | reemit v2 =>
        obtain ⟨hrA, hrN, hrZ, hrM⟩ := hre v2 B1 hB1nd
        obtain ⟨ihA, ihN, ihZ, ihM, ihQ⟩ := ih (reentry v2 B1).B hrN
        have hres : emitLoop env reentry v B (i :: q) =
            ⟨(i, v) :: ((reentry v2 B1).tr ++
               (emitLoop env reentry v (reentry v2 B1).B q).tr),
             (emitLoop env reentry v (reentry v2 B1).B q).B,
             (reentry v2 B1).err.orElse
               (fun _ => (emitLoop env reentry v (reentry v2 B1).B q).err)⟩ := by
          simp [emitLoop, hiB, hact, hB1def]
        rw [hres]
        have hsub : (emitLoop env reentry v (reentry v2 B1).B q).B ⊆ B :=
          fun x hx => hB1sub (hrA (ihA hx))
        by_cases hio : i = o
        · subst hio
          have hoB1 : i ∉ B1 := by
            rw [hB1def, if_pos ho]
            intro hmem
            exact absurd ((hnd.mem_erase_iff).mp hmem).1 (by simp)
          obtain ⟨hz1, hz2⟩ := hrZ hoB1
          obtain ⟨hz3, hz4⟩ := ihZ hz2
          refine ⟨hsub, ihN, ?_, ?_, ?_⟩
          · intro h; exact absurd hiB h
          · intro _; exact Or.inl ⟨by simp [hz1, hz3], hz4⟩
          · intro _ _; exact ⟨by simp [hz1, hz3], hz4⟩
        · have hoB1iff : o ∈ B1 ↔ o ∈ B := by
            rw [hB1def]
            by_cases h1 : env.onceF i
            · simp [h1, List.mem_erase_of_ne (fun h => hio h.symm)]
            · simp [h1]
          refine ⟨hsub, ihN, ?_, ?_, ?_⟩
          · intro h
            obtain ⟨hz1, hz2⟩ := hrZ (fun hc => h (hoB1iff.mp hc))
            obtain ⟨hz3, hz4⟩ := ihZ hz2
            exact ⟨by simp [hio, hz1, hz3], hz4⟩
          · intro h
            rcases hrM (hoB1iff.mpr h) with ⟨h1, h2⟩ | ⟨h1, h2⟩
            · obtain ⟨hz3, hz4⟩ := ihZ h2
              exact Or.inl ⟨by simp [hio, h1, hz3], hz4⟩
            · rcases ihM h2 with ⟨h3, h4⟩ | ⟨h3, h4⟩
              · exact Or.inl ⟨by simp [hio, h1, h3], h4⟩
              · exact Or.inr ⟨by simp [hio, h1, h3], h4⟩
          · intro h hq
            rcases List.mem_cons.mp hq with h' | h'
            · exact absurd h'.symm hio
            · rcases hrM (hoB1iff.mpr h) with ⟨h1, h2⟩ | ⟨h1, h2⟩
              · obtain ⟨hz3, hz4⟩ := ihZ h2
                exact ⟨by simp [hio, h1, hz3], hz4⟩
              · obtain ⟨h3, h4⟩ := ihQ h2 h'
                exact ⟨by simp [hio, h1, h3], h4⟩
    · have hres : emitLoop env reentry v B (i :: q) = emitLoop env reentry v B q := by
        simp [emitLoop, hiB]
      rw [hres]
      obtain ⟨ihA, ihN, ihZ, ihM, ihQ⟩ := ih B hnd
      refine ⟨ihA, ihN, ihZ, ihM, ?_⟩
      intro h hq
      rcases List.mem_cons.mp hq with h' | h'
      · exact absurd (h' ▸ h) hiB
      · exact ihQ h h'

end Sig

namespace Sig

/-- Lift of `emitLoop_once` to full `emit` calls at any re-entrancy depth:
a fully registered `once` entry is invoked exactly once per emit and removed;
an unregistered one is never invoked. -/
theorem emitGo_once (env : SigEnv) (o : Nat) (ho : env.onceF o = true) :
    ∀ (fuel v : Nat) (B : List Nat), B.Nodup →
      (emitGo env fuel v B B).B ⊆ B ∧
      (emitGo env fuel v B B).B.Nodup ∧
      (o ∉ B → cnt o (emitGo env fuel v B B).tr = 0 ∧ o ∉ (emitGo env fuel v B B).B) ∧
      (o ∈ B → cnt o (emitGo env fuel v B B).tr = 1 ∧ o ∉ (emitGo env fuel v B B).B) := by
  intro fuel
  induction fuel with
  | zero =>
    intro v B hnd
    have hre : OnceGood o (fun _ B2 => ⟨[], B2, none⟩) := by
      intro v' B' hnd'
      exact ⟨fun x hx => hx, hnd', fun h => ⟨rfl, h⟩, fun h => Or.inr ⟨rfl, h⟩⟩
    obtain ⟨hA, hN, hZ, _, hQ⟩ := emitLoop_once env o ho _ hre v B B hnd
    exact ⟨hA, hN, hZ, fun h => hQ h h⟩
  | succ fuel ih =>
    intro v B hnd
    have hre : OnceGood o (fun v2 B2 => emitGo env fuel v2 B2 B2) := by
      intro v' B' hnd'
      obtain ⟨hA, hN, hZ, hM⟩ := ih v' B' hnd'
      exact ⟨hA, hN, hZ, fun h => Or.inl (hM h)⟩
    obtain ⟨hA, hN, hZ, _, hQ⟩ := emitLoop_once env o ho _ hre v B B hnd
    exact ⟨hA, hN, hZ, fun h => hQ h h⟩

end Sig

/-- C4 — Once-law (`Signal.once` + `Signal.emit`, src/lib/signal.ts lines
57-61 and 78-97): a listener registered via `once` is removed from the
registry before it is invoked on its one firing (`emitLoop` erases it from
the live registry before running its action), so on the first subsequent
emit it is invoked exactly once with the emitted value even if it raises,
it is absent from the registry afterwards, and it is never invoked by any
later emit — including re-entrant emits issued during the same fan-out,
at any re-entrancy depth. -/
theorem C4_once_law (env : Sig.SigEnv) (fuel v : Nat) (B : List Nat) (o : Nat)
    (ho : env.onceF o = true) (hmem : o ∈ B) (hnd : B.Nodup) :
    Sig.cnt o (Sig.sigEmit env fuel v B).tr = 1 ∧
    o ∉ (Sig.sigEmit env fuel v B).B ∧
    ∀ fuel2 v2, Sig.cnt o (Sig.sigEmit env fuel2 v2 (Sig.sigEmit env fuel v B).B).tr = 0 := by
  obtain ⟨hA, hN, hZ, hM⟩ := Sig.emitGo_once env o ho fuel v B hnd
  obtain ⟨h1, h2⟩ := hM hmem
  refine ⟨h1, h2, ?_⟩
  intro fuel2 v2
  obtain ⟨_, _, hZ2, _⟩ := Sig.emitGo_once env o ho fuel2 v2 _ hN
  exact (hZ2 h2).1

/-- Environment used by the C4 witness: listener 1 performs a re-entrant
emit during the fan-out, listener 2 is a `once` listener that throws,
listener 3 returns normally. -/
def c4Env : Sig.SigEnv :=
  ⟨fun i _ => if i = 1 then .reemit 9 else if i = 2 then .throwE "x" else .ok,
   fun i => i = 2⟩

/-- Witness for C4 at a concrete signal: even though listener 1 re-emits
during the fan-out, the `once` listener 2 fires exactly once, is removed,
and a later emit does not invoke it. -/
theorem C4_once_law_witness :
    Sig.cnt 2 (Sig.sigEmit c4Env 1 5 [1, 2, 3]).tr = 1 ∧
    2 ∉ (Sig.sigEmit c4Env 1 5 [1, 2, 3]).B ∧
    Sig.cnt 2 (Sig.sigEmit c4Env 0 0 (Sig.sigEmit c4Env 1 5 [1, 2, 3]).B).tr = 0 := by
  have h := C4_once_law c4Env 1 5 [1, 2, 3] 2 (by decide) (by decide) (by decide)
  exact ⟨h.1, h.2.1, h.2.2 0 0⟩

namespace St

/-- A JS value stored in a slice field: `none` models `undefined`. -/
abbrev JVal := Option Int

/-- A JS plain object: fields in key-insertion order. -/
abbrev Obj := List (String × JVal)

/-- First-match association lookup (JS property access on an object whose
keys are unique). -/
def aget {α : Type} : List (String × α) → String → Option α
  | [], _ => none
  | (k2, v) :: l, k => if k2 = k then some v else aget l k

/-- JS property read `o[k]`: `undefined` when the key is absent. -/
def jget (o : Obj) (k : String) : JVal :=
  (aget o k).getD none

/-- JS spread update `{ ...o, [k]: v }`: an existing key keeps its position
and receives the new value, a new key is appended. -/
def setKey : Obj → String → JVal → Obj
  | [], k, v => [(k, v)]
  | (k2, w) :: o, k, v =>
    if k2 = k then (k2, v) :: o else (k2, w) :: setKey o k v

/-- Pipeline middleware (src/index.ts lines 3-7): receives the current state
and the incoming update object; `none` is the `null` rejection sentinel. -/
abbrev Mw := Obj → Obj → Option Obj

/-- The `for (const mw of this._middleware)` pipeline of `SliceHandle.set`
(lines 76-80): each middleware receives the (unchanged) current state and the
latest transformed update; `null` aborts the chain. -/
def applyMws : List Mw → Obj → Obj → Option Obj
  | [], _, inc => some inc
  | m :: rest, stt, inc =>
    match m stt inc with
    | none => none
    | some r => applyMws rest stt r

/-- A pending field diff (`{ prev, value }`, line 37). -/
structure PDiff where
  prev : JVal
  value : JVal
deriving DecidableEq

/-- The shared `BatchContext` (lines 30-38). -/
structure BatchCtx where
  active : Bool
  slices : List (String × Obj)
  dirtySlices : List String
  pendingFields : List (String × List (String × PDiff))
deriving DecidableEq

/-- The per-slice data of a `SliceHandle`: current state, frozen defaults,
middleware chain. -/
structure Slice where
  state : Obj
  defaults : Obj
  mw : List Mw

/-- The `SlicedStore`: slice registry in registration order plus the single
shared batch context. -/
structure Store where
  slices : List (String × Slice)
  batch : BatchCtx

/-- The inactive, empty batch context. -/
def emptyCtx : BatchCtx := ⟨false, [], [], []⟩

/-- An emitter firing: field-level (`_flushField`), slice-level
(`_flushSlice`), or store-wide (`_notifyStoreListeners`). -/
inductive Event where
  | fieldE (slice key : String) (value prev : JVal)
  | sliceE (slice : String) (state : Obj)
  | storeE
deriving DecidableEq

/-- `Set.add` on the dirty-slice set, preserving insertion order. -/
def addDirty (l : List String) (n : String) : List String :=
  if n ∈ l then l else l ++ [n]

/-- Merge one field diff into a slice's pending-field map (lines 99-104):
an existing diff keeps the `prev` captured at the first write and has its
`value` overwritten; otherwise a fresh diff records both. -/
def mergeDiff : List (String × PDiff) → String → JVal → JVal → List (String × PDiff)
  | [], k, prev, fv => [(k, ⟨prev, fv⟩)]
  | (k2, d) :: fields, k, prev, fv =>
    if k2 = k then (k2, ⟨d.prev, fv⟩) :: fields
    else (k2, d) :: mergeDiff fields k prev fv

/-- Merge one field diff into the batch context's pending map
(lines 94-104), creating the per-slice map on first use. -/
def mergePending : List (String × List (String × PDiff)) → String → String → JVal → JVal →
    List (String × List (String × PDiff))
  | [], n, k, prev, fv => [(n, [(k, ⟨prev, fv⟩)])]
  | (n2, fields) :: pf, n, k, prev, fv =>
    if n2 = n then (n2, mergeDiff fields k prev fv) :: pf
    else (n2, fields) :: mergePending pf n k prev fv

/-- Replace the state of the slice named `n` in the registry. -/
def updateSliceState : List (String × Slice) → String → Obj → List (String × Slice)
  | [], _, _ => []
  | (n2, sl) :: slices, n, ns =>
    if n2 = n then (n2, { sl with state := ns }) :: slices
    else (n2, sl) :: updateSliceState slices n ns

/-- `SliceHandle.set` (src/index.ts lines 71-113) on the slice named `n`.
Returns the updated store, the emitter firings, and the boolean result.
The `none` branch of the registry lookup is unreachable for a live handle
(a handle's slice is always registered). -/
def setField (st : Store) (n k : String) (v : JVal) : Store × List Event × Bool :=
  match aget st.slices n with
  | none => (st, [], true)
  | some sl =>
    let prev := jget sl.state k
    if prev = v then (st, [], true)
    else
      match applyMws sl.mw sl.state [(k, v)] with
      | none => (st, [], false)
      | some incoming =>
        let finalValue := jget incoming k
        if prev = finalValue then (st, [], true)
        else
          let b0 := st.batch
          let b1 := if b0.active = true ∧ aget b0.slices n = none
                    then { b0 with slices := b0.slices ++ [(n, sl.state)] }
                    else b0
          let ns := setKey sl.state k finalValue
          let slices2 := updateSliceState st.slices n ns
          if b1.active then
            ({ slices := slices2,
               batch := { b1 with
                 dirtySlices := addDirty b1.dirtySlices n,
                 pendingFields := mergePending b1.pendingFields n k prev finalValue } },
             [], true)
          else
            ({ slices := slices2, batch := b1 },
             [.fieldE n k finalValue prev, .sliceE n ns, .storeE], true)

/-- Keys of `new Set([...Object.keys(old), ...Object.keys(nw)])` in
insertion order. -/
def insKeys (acc : List String) : List String → List String
  | [] => acc
  | k :: ks => insKeys (if k ∈ acc then acc else acc ++ [k]) ks

/-- The `allKeys` set of `_notifySliceChanges` (line 457). -/
def allKeys (old nw : Obj) : List String :=
  insKeys [] (old.map Prod.fst ++ nw.map Prod.fst)

/-- JS object spread `{ ...base, ...upd }`. -/
def mergeRec (base upd : Obj) : Obj :=
  base.map (fun p => (p.1, (aget upd p.1).getD p.2)) ++
    upd.filter (fun p => (aget base p.1).isNone)

/-- `SlicedStore._notifySliceChanges` (lines 451-484): batch-aware diff and
notification of a whole-state replacement `old → nw` of slice `n`. -/
def notifySliceChanges (b : BatchCtx) (n : String) (old nw : Obj) :
    BatchCtx × List Event :=
  let ks := allKeys old nw
  if b.active then
    (ks.foldl (fun b2 k =>
        if jget old k = jget nw k then b2
        else { b2 with
          pendingFields := mergePending b2.pendingFields n k (jget old k) (jget nw k) })
      { b with dirtySlices := addDirty b.dirtySlices n },
     [])
  else
    (b,
     (ks.filterMap (fun k =>
        if jget old k = jget nw k then none
        else some (Event.fieldE n k (jget nw k) (jget old k)))) ++ [Event.sliceE n nw])

/-- Restore payload for one slice name: a JS object, or a non-object value
(rejected by the `typeof sliceData === 'object' && sliceData !== null`
guard). -/
inductive RVal where
  | obj : Obj → RVal
  | nonObj : RVal
deriving DecidableEq

/-- One iteration of the `for (const [name, sliceData] of
Object.entries(data))` loop of `SlicedStore.restore` (lines 367-391); the
accumulator carries the store, the emitter firings so far, and the
`anyRestored` flag.  The incoming slice data is deep-cloned and spread over
a deep clone of the slice's defaults (line 386). -/
def restoreStep (acc : Store × List Event × Bool) (e : String × RVal) :
    Store × List Event × Bool :=
  let st := acc.1
  match aget st.slices e.1, e.2 with
  | some sl, .obj d =>
      let b0 := st.batch
      let b1 := if b0.active = true ∧ aget b0.slices e.1 = none
                then { b0 with slices := b0.slices ++ [(e.1, sl.state)] }
                else b0
      let ns := mergeRec sl.defaults d
      let slices2 := updateSliceState st.slices e.1 ns
      let nb := notifySliceChanges b1 e.1 sl.state ns
      (⟨slices2, nb.1⟩, acc.2.1 ++ nb.2, true)
  | _, _ => acc

/-- `SlicedStore.restore` (lines 365-395). -/
def restoreStore (st : Store) (data : List (String × RVal)) : Store × List Event :=
  let a := data.foldl restoreStep (st, [], false)
  if a.1.batch.active = false ∧ a.2.2 = true
  then (a.1, a.2.1 ++ [Event.storeE]) else (a.1, a.2.1)

/-- A statement of a batch body: a field write through a slice handle, or a
raised error. -/
inductive Op where
  | setOp (slice key : String) (v : JVal)
  | throwOp (e : String)

/-- Run one statement of a batch body (the boolean result of `set` is not
consumed by the body). -/
def runOp (st : Store) : Op → Store × List Event × Option String
  | .setOp n k v => let r := setField st n k v; (r.1, r.2.1, none)
  | .throwOp e => (st, [], some e)

/-- Run a batch body: statements execute in order until one throws. -/
def runOps : Store → List Op → Store × List Event × Option String
  | st, [] => (st, [], none)
  | st, op :: ops =>
    match runOp st op with
    | (st1, evs, some e) => (st1, evs, some e)
    | (st1, evs, none) =>
        let r := runOps st1 ops
        (r.1, evs ++ r.2.1, r.2.2)

/-- Opening of a top-level batch (lines 301-304): raise the active flag and
clear the context. -/
def startBatch (st : Store) : Store :=
  { st with batch := ⟨true, [], [], []⟩ }

/-- Pending-field flush (lines 323-330): per slice in pending order, skipped
if the slice is no longer registered. -/
def flushFieldEvs (st : Store) : List Event :=
  (st.batch.pendingFields.map (fun p =>
    if (aget st.slices p.1).isSome
    then p.2.map (fun q => Event.fieldE p.1 q.1 q.2.value q.2.prev)
    else [])).flatten

/-- Dirty-slice flush (lines 332-335). -/
def flushSliceEvs (st : Store) : List Event :=
  st.batch.dirtySlices.filterMap (fun n =>
    (aget st.slices n).map (fun sl => Event.sliceE n sl.state))

/-- Rollback (lines 309-312): every snapshotted slice's state is replaced by
its pre-batch snapshot. -/
def rollback (slices : List (String × Slice)) (snaps : List (String × Obj)) :
    List (String × Slice) :=
  slices.map (fun p =>
    match aget snaps p.1 with
    | some snap => (p.1, { p.2 with state := snap })
    | none => p)

/-- `SlicedStore.batch` (lines 295-344): nested calls run inline; otherwise
open a fresh context, run the body, roll back and re-raise on error, flush
and clear on success.  (The source clears `active` just before flushing;
the flush reads only the pending maps and the slice registry, so the flush
events are computed on the post-body store.) -/
def batchRun (st : Store) (ops : List Op) : Store × List Event × Option String :=
  if st.batch.active then runOps st ops
  else
    let r := runOps (startBatch st) ops
    match r.2.2 with
    | some e => (⟨rollback r.1.slices r.1.batch.slices, emptyCtx⟩, r.2.1, some e)
    | none =>
        let flush := flushFieldEvs r.1 ++ flushSliceEvs r.1 ++
          (if r.1.batch.dirtySlices = [] then [] else [Event.storeE])
        (⟨r.1.slices, emptyCtx⟩, r.2.1 ++ flush, none)

/-- Current state of the slice named `n` (empty object when unregistered). -/
def stateOf (st : Store) (n : String) : Obj :=
  ((aget st.slices n).map Slice.state).getD []

/-- The pending diff recorded this batch for field `k` of slice `n`. -/
def pendLookup (st : Store) (n k : String) : Option PDiff :=
  (aget st.batch.pendingFields n).bind (fun fields => aget fields k)

end St

namespace St

theorem aget_setKey_self (o : Obj) (k : String) (v : JVal) :
    aget (setKey o k v) k = some v := by
  induction o with
  | nil => simp [setKey, aget]
  | cons p o ih =>
    obtain ⟨k2, w⟩ := p
    by_cases he : k2 = k
    · subst he; simp [setKey, aget]
    · simp [setKey, he, aget, ih]

@[simp] theorem jget_setKey (o : Obj) (k : String) (v : JVal) :
    jget (setKey o k v) k = v := by
  simp [jget, aget_setKey_self]

theorem aget_setKey_ne (o : Obj) (k : String) (v : JVal) (k2 : String) (h : k2 ≠ k) :
    aget (setKey o k v) k2 = aget o k2 := by
  induction o with
  | nil => simp [setKey, aget, Ne.symm h]
  | cons p o ih =>
    obtain ⟨k3, w⟩ := p
    by_cases he : k3 = k
    · subst he
      simp [setKey, aget, Ne.symm h]
    · simp [setKey, he, aget, ih]

theorem jget_setKey_ne (o : Obj) (k : String) (v : JVal) (k2 : String) (h : k2 ≠ k) :
    jget (setKey o k v) k2 = jget o k2 := by
  simp [jget, aget_setKey_ne o k v k2 h]

theorem aget_updateSliceState (slices : List (String × Slice)) (n : String)
    (ns : Obj) (sl : Slice) (h : aget slices n = some sl) :
    aget (updateSliceState slices n ns) n = some { sl with state := ns } := by
  induction slices with
  | nil => simp [aget] at h
  | cons p slices ih =>
    obtain ⟨n2, sl2⟩ := p
    by_cases he : n2 = n
    · subst he
      simp [aget] at h
      subst h
      simp [updateSliceState, aget]
    · simp [aget, he] at h
      simp [updateSliceState, he, aget, ih h]

theorem aget_updateSliceState_ne (slices : List (String × Slice)) (n : String)
    (ns : Obj) (n2 : String) (h : n2 ≠ n) :
    aget (updateSliceState slices n ns) n2 = aget slices n2 := by
  induction slices with
  | nil => simp [updateSliceState]
  | cons p slices ih =>
    obtain ⟨n3, sl3⟩ := p
    by_cases he : n3 = n
    · subst he
      simp [updateSliceState, aget, Ne.symm h]
    · simp [updateSliceState, he, aget, ih]

theorem applyMws_id (mws : List Mw) (stt p : Obj)
    (h : ∀ m ∈ mws, m stt p = some p) : applyMws mws stt p = some p := by
  induction mws with
  | nil => rfl
  | cons m mws ih =>
    have hm := h m (List.mem_cons_self _ _)
    have ih2 := ih (fun m2 hm2 => h m2 (List.mem_cons_of_mem _ hm2))
    simp [applyMws, hm, ih2]

@[simp] theorem jget_single (k : String) (v : JVal) : jget [(k, v)] k = v := by
  simp [jget, aget]

/-- The full result of a non-batched, middleware-accepted, actually-changing
`set` call. -/
theorem setField_nonbatched (st : Store) (n k : String) (v : JVal) (sl : Slice)
    (hreg : aget st.slices n = some sl)
    (hna : st.batch.active = false)
    (hch : applyMws sl.mw sl.state [(k, v)] = some [(k, v)])
    (hne : jget sl.state k ≠ v) :
    setField st n k v =
      (⟨updateSliceState st.slices n (setKey sl.state k v), st.batch⟩,
       [.fieldE n k v (jget sl.state k), .sliceE n (setKey sl.state k v), .storeE],
       true) := by
  simp [setField, hreg, hch, hne, hna]

end St

/-- C2 — Non-batched `set` postcondition (`SliceHandle.set`, src/index.ts
lines 71-113): for a registered slice, key `k` and value `v`, when no batch
is active, every middleware passes the update through unchanged, and `v`
differs by `Object.is` from the current value of `k`, then after
`set(k, v)`: `get(k)` is `v`, and the emitter firings are exactly the field
emitter for `k` once with payload `(v, previous)`, then the slice emitter
once with the full new slice state, then the store-wide emitter once — in
exactly that order.  `set` also reports success. -/
theorem C2_nonbatched_set_postcondition (st : St.Store) (n k : String)
    (v : St.JVal) (sl : St.Slice)
    (hreg : St.aget st.slices n = some sl)
    (hna : st.batch.active = false)
    (hmw : ∀ m ∈ sl.mw, m sl.state [(k, v)] = some [(k, v)])
    (hne : St.jget sl.state k ≠ v) :
    St.jget (St.stateOf (St.setField st n k v).1 n) k = v ∧
    (St.setField st n k v).2.1 =
      [St.Event.fieldE n k v (St.jget sl.state k),
       St.Event.sliceE n (St.setKey sl.state k v),
       St.Event.storeE] ∧
    (St.setField st n k v).2.2 = true := by
  have hch := St.applyMws_id sl.mw sl.state [(k, v)] hmw
  rw [St.setField_nonbatched st n k v sl hreg hna hch hne]
  refine ⟨?_, rfl, rfl⟩
  simp [St.stateOf, St.aget_updateSliceState st.slices n _ sl hreg]

/-- Concrete store for the C2 witness: one slice `"wallet"` with a single
field `"bet" = 1`, no middleware, no active batch. -/
def c2Store : St.Store :=
  ⟨[("wallet", ⟨[("bet", some 1)], [("bet", some 1)], []⟩)], St.emptyCtx⟩

/-- Witness for C2: setting `"bet"` to 10 updates the field and fires the
three emitters in order with the specified payloads. -/
theorem C2_nonbatched_set_postcondition_witness :
    St.jget (St.stateOf (St.setField c2Store "wallet" "bet" (some 10)).1 "wallet") "bet"
      = some 10 ∧
    (St.setField c2Store "wallet" "bet" (some 10)).2.1 =
      [St.Event.fieldE "wallet" "bet" (some 10) (some 1),
       St.Event.sliceE "wallet" [("bet", some 10)],
       St.Event.storeE] ∧
    (St.setField c2Store "wallet" "bet" (some 10)).2.2 = true := by
  have h := C2_nonbatched_set_postcondition c2Store "wallet" "bet" (some 10)
    ⟨[("bet", some 1)], [("bet", some 1)], []⟩ rfl rfl
    (by intro m hm; simp at hm) (by decide)
  simpa [c2Store, St.setKey, St.jget, St.aget] using h

/-- C7 — Middleware rejection short-circuit (`SliceHandle.set`, src/index.ts
lines 76-80): when the call reaches the middleware chain (the incoming value
differs from the current one) and some middleware returns the `null`
rejection sentinel, the call leaves the store — slice states and the batch
context, including any pending batch diffs — completely unchanged, fires no
field, slice, or store-wide emitter, raises no error, and reports `false`:
a silent, never partially applied no-op. -/
theorem C7_middleware_rejection_short_circuit (st : St.Store) (n k : String)
    (v : St.JVal) (sl : St.Slice)
    (hreg : St.aget st.slices n = some sl)
    (hne : St.jget sl.state k ≠ v)
    (hrej : St.applyMws sl.mw sl.state [(k, v)] = none) :
    St.setField st n k v = (st, [], false) := by
  simp [St.setField, hreg, hne, hrej]

/-- Concrete store for the C7 witness: one slice whose single middleware
rejects every update. -/
def c7Store : St.Store :=
  ⟨[("wallet", ⟨[("bet", some 1)], [("bet", some 1)], [fun _ _ => none]⟩)], St.emptyCtx⟩

/-- Witness for C7: the rejected `set` returns the store unchanged, no
events, and `false`. -/
theorem C7_middleware_rejection_short_circuit_witness :
    St.setField c7Store "wallet" "bet" (some 10) = (c7Store, [], false) := by
  exact C7_middleware_rejection_short_circuit c7Store "wallet" "bet" (some 10)
    ⟨[("bet", some 1)], [("bet", some 1)], [fun _ _ => none]⟩ rfl (by decide) rfl

/-- C9 — `set`'s return value (`SliceHandle.set`, src/index.ts lines 71-113):
`set(k, v)` returns `false` exactly when the call reaches the middleware
chain (the incoming value differs by `Object.is` from the current one) and
some middleware returns the `null` rejection sentinel; in every other case
it returns `true`, including the no-op cases — `v` value-identical to the
current value, or the middleware-transformed value value-identical to the
current value — in which `set` returns `true` while leaving the store
unchanged and firing no notification. -/
theorem C9_set_return_value (st : St.Store) (n k : String) (v : St.JVal)
    (sl : St.Slice) (hreg : St.aget st.slices n = some sl) :
    ((St.setField st n k v).2.2 = false ↔
      St.jget sl.state k ≠ v ∧ St.applyMws sl.mw sl.state [(k, v)] = none) ∧
    (St.jget sl.state k = v → St.setField st n k v = (st, [], true)) ∧
    (∀ inc, St.applyMws sl.mw sl.state [(k, v)] = some inc →
      St.jget inc k = St.jget sl.state k → St.setField st n k v = (st, [], true)) := by
  by_cases heq : St.jget sl.state k = v
  · refine ⟨?_, fun _ => by simp [St.setField, hreg, heq],
      fun inc h1 h2 => by simp [St.setField, hreg, heq]⟩
    simp [St.setField, hreg, heq]
  · cases hmw : St.applyMws sl.mw sl.state [(k, v)] with
    | none =>
      refine ⟨?_, fun h => absurd h heq, fun inc h1 => absurd h1 (by simp)⟩
      simp [St.setField, hreg, heq, hmw]
    | some inc =>
      by_cases hfv : St.jget sl.state k = St.jget inc k
      · have hres : St.setField st n k v = (st, [], true) := by
          simp [St.setField, hreg, heq, hmw, hfv]
        refine ⟨by simp [hres, hmw], fun h => absurd h heq, fun inc2 h1 h2 => hres⟩
      · have hres : (St.setField st n k v).2.2 = true := by
          simp only [St.setField, hreg, hmw]
          rw [if_neg heq, if_neg hfv]
          split <;> split <;> rfl
        refine ⟨by simp [hres, hmw], fun h => absurd h heq, fun inc2 h1 h2 => ?_⟩
        cases h1
        exact absurd h2.symm hfv

/-- Concrete store for the C9 witness. -/
def c9Store : St.Store :=
  ⟨[("wallet", ⟨[("bet", some 1)], [("bet", some 1)], []⟩)], St.emptyCtx⟩

/-- Witness for C9: a `set` of the value-identical current value is a no-op
that still returns `true`. -/
theorem C9_set_return_value_witness :
    St.setField c9Store "wallet" "bet" (some 1) = (c9Store, [], true) :=
  (C9_set_return_value c9Store "wallet" "bet" (some 1)
    ⟨[("bet", some 1)], [("bet", some 1)], []⟩ rfl).2.1 (by decide)

/-- C10 — A write-then-write-back inside a batch still notifies
(`SliceHandle.set` lines 92-106, `SlicedStore.batch` lines 320-344): if a
batch body sets a field of a middleware-free registered slice to a new value
`b` and then sets it back to the value-identical pre-batch value, the slice
stays dirty and its pending diff is kept (`prev` from the first write,
`value` overwritten), so batch completion fires the field emitter once with
a payload whose value and previous are value-identical, then the slice
emitter, then the store-wide emitter — even though the slice's net state
change is zero. -/
theorem C10_write_back_still_notifies (st : St.Store) (n k : String)
    (b : St.JVal) (sl : St.Slice)
    (hna : st.batch.active = false)
    (hreg : St.aget st.slices n = some sl)
    (hmw : sl.mw = [])
    (hne : St.jget sl.state k ≠ b) :
    (St.batchRun st [.setOp n k b, .setOp n k (St.jget sl.state k)]).2.1 =
      [St.Event.fieldE n k (St.jget sl.state k) (St.jget sl.state k),
       St.Event.sliceE n
         (St.setKey (St.setKey sl.state k b) k (St.jget sl.state k)),
       St.Event.storeE] ∧
    (St.batchRun st [.setOp n k b, .setOp n k (St.jget sl.state k)]).2.2 = none := by
  have hba : b ≠ St.jget sl.state k := Ne.symm hne
  have h1 : St.setField (St.startBatch st) n k b =
      (⟨St.updateSliceState st.slices n (St.setKey sl.state k b),
        ⟨true, [(n, sl.state)], [n],
         [(n, [(k, ⟨St.jget sl.state k, b⟩)])]⟩⟩, [], true) := by
    simp [St.setField, St.startBatch, hreg, hmw, St.applyMws, hne,
      St.aget, St.addDirty, St.mergePending]
  have hag1 : St.aget (St.updateSliceState st.slices n (St.setKey sl.state k b)) n
      = some { sl with state := St.setKey sl.state k b } :=
    St.aget_updateSliceState st.slices n _ sl hreg
  have h2 : St.setField
      (⟨St.updateSliceState st.slices n (St.setKey sl.state k b),
        ⟨true, [(n, sl.state)], [n],
         [(n, [(k, ⟨St.jget sl.state k, b⟩)])]⟩⟩ : St.Store)
      n k (St.jget sl.state k) =
      (⟨St.updateSliceState (St.updateSliceState st.slices n (St.setKey sl.state k b)) n
          (St.setKey (St.setKey sl.state k b) k (St.jget sl.state k)),
        ⟨true, [(n, sl.state)], [n],
         [(n, [(k, ⟨St.jget sl.state k, St.jget sl.state k⟩)])]⟩⟩, [], true) := by
    simp [St.setField, hag1, hmw, St.applyMws, hba, St.aget,
      St.addDirty, St.mergePending, St.mergeDiff]
  have hag2 := St.aget_updateSliceState
    (St.updateSliceState st.slices n (St.setKey sl.state k b)) n
    (St.setKey (St.setKey sl.state k b) k (St.jget sl.state k)) _ hag1
  have hrun : St.runOps (St.startBatch st) [.setOp n k b, .setOp n k (St.jget sl.state k)] =
      (⟨St.updateSliceState (St.updateSliceState st.slices n (St.setKey sl.state k b)) n
          (St.setKey (St.setKey sl.state k b) k (St.jget sl.state k)),
        ⟨true, [(n, sl.state)], [n],
         [(n, [(k, ⟨St.jget sl.state k, St.jget sl.state k⟩)])]⟩⟩, [], none) := by
    simp [St.runOps, St.runOp, h1, h2]
  constructor <;>
    simp [St.batchRun, hna, hrun, St.flushFieldEvs, St.flushSliceEvs, hag2, St.aget]

/-- Concrete store for the C10 witness. -/
def c10Store : St.Store :=
  ⟨[("wallet", ⟨[("bet", some 1)], [("bet", some 1)], []⟩)], St.emptyCtx⟩

/-- Witness for C10: setting `"bet"` to 5 and back to 1 inside a batch still
fires the field emitter with payload `(1, 1)`, then the slice emitter, then
the store-wide emitter. -/
theorem C10_write_back_still_notifies_witness :
    (St.batchRun c10Store
      [.setOp "wallet" "bet" (some 5), .setOp "wallet" "bet" (some 1)]).2.1 =
      [St.Event.fieldE "wallet" "bet" (some 1) (some 1),
       St.Event.sliceE "wallet" [("bet", some 1)],
       St.Event.storeE] ∧
    (St.batchRun c10Store
      [.setOp "wallet" "bet" (some 5), .setOp "wallet" "bet" (some 1)]).2.2 = none := by
  have h := C10_write_back_still_notifies c10Store "wallet" "bet" (some 5)
    ⟨[("bet", some 1)], [("bet", some 1)], []⟩ rfl rfl rfl (by decide)
  simpa [St.jget, St.aget, St.setKey] using h

namespace St

theorem aget_append_left {α : Type} (l1 l2 : List (String × α)) (n : String)
    (a : α) (h : aget l1 n = some a) : aget (l1 ++ l2) n = some a := by
  induction l1 with
  | nil => simp [aget] at h
  | cons p l1 ih =>
    obtain ⟨n2, b⟩ := p
    by_cases he : n2 = n
    · subst he
      simp [aget] at h ⊢
      exact h
    · simp [aget, he] at h ⊢
      exact ih h

theorem aget_append_none {α : Type} (l1 l2 : List (String × α)) (n : String)
    (h : aget l1 n = none) : aget (l1 ++ l2) n = aget l2 n := by
  induction l1 with
  | nil => simp
  | cons p l1 ih =>
    obtain ⟨n2, b⟩ := p
    by_cases he : n2 = n
    · subst he; simp [aget] at h
    · simp [aget, he] at h ⊢
      exact ih h

/-- Invariant a batch body maintains over the store relative to the store
`st0` it started from: the batch stays active; the registry keys, each
slice's defaults and middleware are unchanged; every snapshot in the batch
context holds the pre-batch state of its slice; and every slice without a
snapshot still has its pre-batch state. -/
structure RollInv (st0 st : Store) : Prop where
  act : st.batch.active = true
  reg : ∀ n, (aget st.slices n).isSome = (aget st0.slices n).isSome
  src : ∀ n sl, aget st.slices n = some sl → ∃ sl0, aget st0.slices n = some sl0 ∧
          sl.defaults = sl0.defaults ∧ sl.mw = sl0.mw ∧
          (aget st.batch.slices n = none → sl.state = sl0.state)
  snap : ∀ n s, aget st.batch.slices n = some s →
          ∃ sl0, aget st0.slices n = some sl0 ∧ s = sl0.state

/-- `startBatch` establishes the rollback invariant. -/
theorem rollinv_start (st : Store) : RollInv st (startBatch st) := by
  refine ⟨rfl, fun n => rfl, fun n sl h => ⟨sl, h, rfl, rfl, fun _ => rfl⟩, ?_⟩
  intro n s h
  simp [startBatch, aget] at h

/-- A `set` inside an active batch preserves the rollback invariant and
fires nothing. -/
theorem setField_rollinv (st0 st : Store) (n k : String) (v : JVal)
    (h : RollInv st0 st) :
    RollInv st0 (setField st n k v).1 ∧ (setField st n k v).2.1 = [] := by
  cases hreg : aget st.slices n with
  | none => simp [setField, hreg]; exact h
  | some sl =>
    by_cases h1 : jget sl.state k = v
    · simp [setField, hreg, h1]; exact h
    · cases hmw : applyMws sl.mw sl.state [(k, v)] with
      | none => simp [setField, hreg, h1, hmw]; exact h
      | some inc =>
        by_cases h2 : jget sl.state k = jget inc k
        · simp [setField, hreg, h1, hmw, h2]; exact h
        · obtain ⟨sl0, hsl0, hdef, hmw0, hst⟩ := h.src n sl hreg
          by_cases hsnap : aget st.batch.slices n = none
          · have hres : setField st n k v =
                (⟨updateSliceState st.slices n (setKey sl.state k (jget inc k)),
                  { active := st.batch.active,
                    slices := st.batch.slices ++ [(n, sl.state)],
                    dirtySlices := addDirty st.batch.dirtySlices n,
                    pendingFields :=
                      mergePending st.batch.pendingFields n k (jget sl.state k) (jget inc k) }⟩,
                 [], true) := by
              simp [setField, hreg, h1, hmw, h2, h.act, hsnap]
            rw [hres]
            refine ⟨⟨h.act, ?_, ?_, ?_⟩, rfl⟩
            · intro m
              by_cases hm : m = n
              · subst hm
                rw [aget_updateSliceState st.slices m _ sl hreg]
                rw [← h.reg m, hreg]
                rfl
              · rw [aget_updateSliceState_ne st.slices n _ m hm, ← h.reg m]
            · intro m sl2 hm2
              by_cases hm : m = n
              · subst hm
                rw [aget_updateSliceState st.slices m _ sl hreg] at hm2
                cases hm2
                refine ⟨sl0, hsl0, hdef, hmw0, ?_⟩
                intro hc
                rw [aget_append_none _ _ _ hsnap] at hc
                simp [aget] at hc
              · rw [aget_updateSliceState_ne st.slices n _ m hm] at hm2
                obtain ⟨sl0b, hb1, hb2, hb3, hb4⟩ := h.src m sl2 hm2
                refine ⟨sl0b, hb1, hb2, hb3, ?_⟩
                intro hc
                apply hb4
                cases hcc : aget st.batch.slices m with
                | none => rfl
                | some s =>
                  rw [aget_append_left _ _ _ _ hcc] at hc
                  cases hc
            · intro m s hm
              cases hcc : aget st.batch.slices m with
              | some s2 =>
                rw [aget_append_left _ _ _ _ hcc] at hm
                injection hm with hinj
                subst hinj
                exact h.snap m _ hcc
              | none =>
                rw [aget_append_none _ _ _ hcc] at hm
                simp [aget] at hm
                obtain ⟨hmn, hs⟩ := hm
                subst hmn
                exact ⟨sl0, hsl0, by rw [← hs]; exact hst hcc⟩
          · obtain ⟨s0, hs0⟩ := Option.ne_none_iff_exists'.mp hsnap
            have hres : setField st n k v =
                (⟨updateSliceState st.slices n (setKey sl.state k (jget inc k)),
                  { active := st.batch.active,
                    slices := st.batch.slices,
                    dirtySlices := addDirty st.batch.dirtySlices n,
                    pendingFields :=
                      mergePending st.batch.pendingFields n k (jget sl.state k) (jget inc k) }⟩,
                 [], true) := by
              simp [setField, hreg, h1, hmw, h2, h.act, hs0]
            rw [hres]
            refine ⟨⟨h.act, ?_, ?_, h.snap⟩, rfl⟩
            · intro m
              by_cases hm : m = n
              · subst hm
                rw [aget_updateSliceState st.slices m _ sl hreg]
                rw [← h.reg m, hreg]
                rfl
              · rw [aget_updateSliceState_ne st.slices n _ m hm, ← h.reg m]
            · intro m sl2 hm2
              by_cases hm : m = n
              · subst hm
                rw [aget_updateSliceState st.slices m _ sl hreg] at hm2
                cases hm2
                refine ⟨sl0, hsl0, hdef, hmw0, ?_⟩
                intro hc
                rw [hs0] at hc
                cases hc
              · rw [aget_updateSliceState_ne st.slices n _ m hm] at hm2
                exact h.src m sl2 hm2

/-- A batch body preserves the rollback invariant and fires nothing. -/
theorem runOps_rollinv (st0 : Store) :
    ∀ (ops : List Op) (st : Store), RollInv st0 st →
      RollInv st0 (runOps st ops).1 ∧ (runOps st ops).2.1 = [] := by
  intro ops
  induction ops with
  | nil => intro st h; exact ⟨h, rfl⟩
  | cons op ops ih =>
    intro st h
    cases op with
    | setOp n k v =>
      obtain ⟨h1, h2⟩ := setField_rollinv st0 st n k v h
      obtain ⟨h3, h4⟩ := ih (setField st n k v).1 h1
      simp [runOps, runOp, h2, h4]
      exact h3
    | throwOp e =>
      simpa [runOps, runOp] using h

/-- Lookup through a rollback. -/
theorem aget_rollback (slices : List (String × Slice)) (snaps : List (String × Obj))
    (n : String) :
    aget (rollback slices snaps) n = (aget slices n).map (fun sl =>
      match aget snaps n with
      | some s => { sl with state := s }
      | none => sl) := by
  induction slices with
  | nil => simp [rollback, aget]
  | cons p slices ih =>
    obtain ⟨n2, sl⟩ := p
    by_cases he : n2 = n
    · subst he
      cases hs : aget snaps n2 <;> simp [rollback, aget, hs]
    · cases hs : aget snaps n2 <;>
        simpa [rollback, aget, he, hs] using ih

end St

/-- C1 — Rollback atomicity of `batch` (`SlicedStore.batch`, src/index.ts
lines 295-318): for every top-level `batch(fn)` call whose body raises an
error after performing field writes, every slice is restored exactly to its
pre-batch state (snapshotted slices from their pre-batch deep copies,
untouched slices trivially), no field-level, slice-level, or store-wide
emitter fires at all, the batch context is cleared (inactive and empty, so
the store is usable afterwards), and the original error is re-raised to the
caller unmodified. -/
theorem C1_batch_rollback_atomicity (st : St.Store) (ops : List St.Op) (e : String)
    (hna : st.batch.active = false)
    (herr : (St.runOps (St.startBatch st) ops).2.2 = some e) :
    (St.batchRun st ops).2.2 = some e ∧
    (St.batchRun st ops).2.1 = [] ∧
    (St.batchRun st ops).1.batch = St.emptyCtx ∧
    ∀ n, St.stateOf (St.batchRun st ops).1 n = St.stateOf st n := by
  obtain ⟨hinv, hevs⟩ :=
    St.runOps_rollinv st ops (St.startBatch st) (St.rollinv_start st)
  have hbr : St.batchRun st ops =
      (⟨St.rollback (St.runOps (St.startBatch st) ops).1.slices
          (St.runOps (St.startBatch st) ops).1.batch.slices, St.emptyCtx⟩,
       (St.runOps (St.startBatch st) ops).2.1, some e) := by
    simp [St.batchRun, hna, herr]
  rw [hbr]
  refine ⟨rfl, hevs, rfl, ?_⟩
  intro n
  simp only [St.stateOf, St.aget_rollback]
  cases hreg2 : St.aget (St.runOps (St.startBatch st) ops).1.slices n with
  | none =>
    have hr := hinv.reg n
    rw [hreg2] at hr
    have h0 : St.aget st.slices n = none := by
      cases hx : St.aget st.slices n with
      | none => rfl
      | some sl => rw [hx] at hr; simp at hr
    simp [h0]
  | some sl =>
    cases hsn : St.aget (St.runOps (St.startBatch st) ops).1.batch.slices n with
    | some s =>
      obtain ⟨sl0, hsl0, hs⟩ := hinv.snap n s hsn
      simp [hsn, hsl0, hs]
    | none =>
      obtain ⟨sl0, hsl0, _, _, hst⟩ := hinv.src n sl hreg2
      simp [hsn, hsl0, hst hsn]

/-- Concrete store for the C1 witness. -/
def c1Store : St.Store :=
  ⟨[("wallet", ⟨[("bet", some 1)], [("bet", some 1)], []⟩)], St.emptyCtx⟩

/-- Witness for C1: a batch body that writes `"bet" := 99` and then throws
leaves `"wallet"` at its pre-batch state, fires nothing, clears the context,
and re-raises the error. -/
theorem C1_batch_rollback_atomicity_witness :
    (St.batchRun c1Store [.setOp "wallet" "bet" (some 99), .throwOp "abort"]).2.2
      = some "abort" ∧
    (St.batchRun c1Store [.setOp "wallet" "bet" (some 99), .throwOp "abort"]).2.1 = [] ∧
    (St.batchRun c1Store [.setOp "wallet" "bet" (some 99), .throwOp "abort"]).1.batch
      = St.emptyCtx ∧
    St.stateOf
      (St.batchRun c1Store [.setOp "wallet" "bet" (some 99), .throwOp "abort"]).1 "wallet"
      = St.stateOf c1Store "wallet" := by
  have h := C1_batch_rollback_atomicity c1Store
    [.setOp "wallet" "bet" (some 99), .throwOp "abort"] "abort" rfl (by rfl)
  exact ⟨h.1, h.2.1, h.2.2.1, h.2.2.2 "wallet"⟩

namespace St

theorem aget_eq_none {α : Type} (l : List (String × α)) (m : String) :
    aget l m = none ↔ m ∉ l.map Prod.fst := by
  induction l with
  | nil => simp [aget]
  | cons p l ih =>
    obtain ⟨n2, a⟩ := p
    by_cases he : n2 = m
    · subst he; simp [aget]
    · simp [aget, he, ih, Ne.symm he]

theorem aget_mergeDiff_self (fs : List (String × PDiff)) (k : String) (prev fv : JVal) :
    aget (mergeDiff fs k prev fv) k =
      some ⟨((aget fs k).map PDiff.prev).getD prev, fv⟩ := by
  induction fs with
  | nil => simp [mergeDiff, aget]
  | cons p fs ih =>
    obtain ⟨k2, d⟩ := p
    by_cases he : k2 = k
    · subst he; simp [mergeDiff, aget]
    · simp [mergeDiff, he, aget, ih]

theorem aget_mergeDiff_ne (fs : List (String × PDiff)) (k : String) (prev fv : JVal)
    (k2 : String) (h : k2 ≠ k) :
    aget (mergeDiff fs k prev fv) k2 = aget fs k2 := by
  induction fs with
  | nil => simp [mergeDiff, aget, Ne.symm h]
  | cons p fs ih =>
    obtain ⟨k3, d⟩ := p
    by_cases he : k3 = k
    · subst he; simp [mergeDiff, aget, Ne.symm h]
    · simp [mergeDiff, he, aget, ih]

theorem mergeDiff_keys (fs : List (String × PDiff)) (k : String) (prev fv : JVal) :
    (mergeDiff fs k prev fv).map Prod.fst =
      if (aget fs k).isSome then fs.map Prod.fst else fs.map Prod.fst ++ [k] := by
  induction fs with
  | nil => simp [mergeDiff, aget]
  | cons p fs ih =>
    obtain ⟨k2, d⟩ := p
    by_cases he : k2 = k
    · subst he; simp [mergeDiff, aget]
    · have hag : aget ((k2, d) :: fs) k = aget fs k := by simp [aget, he]
      simp only [mergeDiff, if_neg he, List.map_cons, hag, ih]
      by_cases hs : (aget fs k).isSome <;> simp [hs]

theorem aget_mergePending_self (pf : List (String × List (String × PDiff)))
    (n k : String) (prev fv : JVal) :
    aget (mergePending pf n k prev fv) n =
      some (mergeDiff ((aget pf n).getD []) k prev fv) := by
  induction pf with
  | nil => simp [mergePending, aget, mergeDiff]
  | cons p pf ih =>
    obtain ⟨n2, fs⟩ := p
    by_cases he : n2 = n
    · subst he; simp [mergePending, aget]
    · simp [mergePending, he, aget, ih]

theorem aget_mergePending_ne (pf : List (String × List (String × PDiff)))
    (n k : String) (prev fv : JVal) (m : String) (h : m ≠ n) :
    aget (mergePending pf n k prev fv) m = aget pf m := by
  induction pf with
  | nil => simp [mergePending, aget, Ne.symm h]
  | cons p pf ih =>
    obtain ⟨n2, fs⟩ := p
    by_cases he : n2 = n
    · subst he; simp [mergePending, aget, Ne.symm h]
    · simp [mergePending, he, aget, ih]

theorem mergePending_keys (pf : List (String × List (String × PDiff)))
    (n k : String) (prev fv : JVal) :
    (mergePending pf n k prev fv).map Prod.fst =
      if (aget pf n).isSome then pf.map Prod.fst else pf.map Prod.fst ++ [n] := by
  induction pf with
  | nil => simp [mergePending, aget]
  | cons p pf ih =>
    obtain ⟨n2, fs⟩ := p
    by_cases he : n2 = n
    · subst he; simp [mergePending, aget]
    · have hag : aget ((n2, fs) :: pf) n = aget pf n := by simp [aget, he]
      simp only [mergePending, if_neg he, List.map_cons, hag, ih]
      by_cases hs : (aget pf n).isSome <;> simp [hs]

theorem mem_addDirty (l : List String) (n m : String) :
    m ∈ addDirty l n ↔ m ∈ l ∨ m = n := by
  by_cases h : n ∈ l
  · simp only [addDirty, if_pos h]
    constructor
    · exact Or.inl
    · rintro (hm | rfl)
      · exact hm
      · exact h
  · simp [addDirty, if_neg h]

theorem addDirty_nodup (l : List String) (n : String) (h : l.Nodup) :
    (addDirty l n).Nodup := by
  by_cases hm : n ∈ l
  · simpa [addDirty, hm] using h
  · simp only [addDirty, if_neg hm]
    simpa [List.nodup_append] using ⟨h, hm⟩

theorem aget_updateSliceState_isSome (slices : List (String × Slice)) (n : String)
    (ns : Obj) (m : String) :
    (aget (updateSliceState slices n ns) m).isSome = (aget slices m).isSome := by
  induction slices with
  | nil => simp [updateSliceState]
  | cons p slices ih =>
    obtain ⟨n2, sl⟩ := p
    by_cases he : n2 = n
    · subst he
      by_cases hm : n2 = m
      · subst hm; simp [updateSliceState, aget]
      · simp [updateSliceState, aget, hm, ih]
    · by_cases hm : n2 = m
      · subst hm
        simp [updateSliceState, he, aget]
      · simp [updateSliceState, he, aget, hm, ih]

end St

namespace St

/-- Coalescing invariant a batch body maintains over the store relative to
the pre-batch store `st0`: the batch stays active; the dirty set and the
pending maps are duplicate-free; every pending slice is registered and
dirty; every pending diff's `prev` is the field's pre-batch value and its
`value` the field's current value; and a field with no pending diff still
holds its pre-batch value. -/
structure BInv (st0 st : Store) : Prop where
  act : st.batch.active = true
  dnodup : st.batch.dirtySlices.Nodup
  pnodup : (st.batch.pendingFields.map Prod.fst).Nodup
  pfnodup : ∀ n fs, aget st.batch.pendingFields n = some fs → (fs.map Prod.fst).Nodup
  preg : ∀ n, (aget st.batch.pendingFields n).isSome = true →
           (aget st.slices n).isSome = true
  pdirty : ∀ n, (aget st.batch.pendingFields n).isSome = true →
           n ∈ st.batch.dirtySlices
  pdiff : ∀ n k d, pendLookup st n k = some d →
           d.prev = jget (stateOf st0 n) k ∧ d.value = jget (stateOf st n) k
  pcomp : ∀ n k, pendLookup st n k = none →
           jget (stateOf st n) k = jget (stateOf st0 n) k

/-- `startBatch` establishes the coalescing invariant. -/
theorem binv_start (st : Store) : BInv st (startBatch st) := by
  refine ⟨rfl, List.nodup_nil, List.nodup_nil, ?_, ?_, ?_, ?_, ?_⟩
  · intro n fs hfs; simp [startBatch, aget] at hfs
  · intro n hn; simp [startBatch, aget] at hn
  · intro n hn; simp [startBatch, aget] at hn
  · intro n k d hd; simp [pendLookup, startBatch, aget] at hd
  · intro n k _; rfl

/-- A `set` inside an active batch preserves the coalescing invariant. -/
theorem setField_binv (st0 st : Store) (n k : String) (v : JVal)
    (h : BInv st0 st) : BInv st0 (setField st n k v).1 := by
  cases hreg : aget st.slices n with
  | none => simpa [setField, hreg] using h
  | some sl =>
    by_cases h1 : jget sl.state k = v
    · simpa [setField, hreg, h1] using h
    · cases hmw : applyMws sl.mw sl.state [(k, v)] with
      | none => simpa [setField, hreg, h1, hmw] using h
      | some inc =>
        by_cases h2 : jget sl.state k = jget inc k
        · simpa [setField, hreg, h1, hmw, h2] using h
        · have hres : ∃ snaps, setField st n k v =
              (⟨updateSliceState st.slices n (setKey sl.state k (jget inc k)),
                { active := st.batch.active, slices := snaps,
                  dirtySlices := addDirty st.batch.dirtySlices n,
                  pendingFields :=
                    mergePending st.batch.pendingFields n k (jget sl.state k) (jget inc k) }⟩,
               [], true) := by
            by_cases hsnap : aget st.batch.slices n = none
            · refine ⟨st.batch.slices ++ [(n, sl.state)], ?_⟩
              simp [setField, hreg, h1, hmw, h2, h.act, hsnap]
            · obtain ⟨s0, hs0⟩ := Option.ne_none_iff_exists'.mp hsnap
              refine ⟨st.batch.slices, ?_⟩
              simp [setField, hreg, h1, hmw, h2, h.act, hs0]
          obtain ⟨snaps, hres⟩ := hres
          rw [hres]
          have hstn : stateOf st n = sl.state := by simp [stateOf, hreg]
          have hag2 := aget_updateSliceState st.slices n (setKey sl.state k (jget inc k)) sl hreg
          refine ⟨h.act, addDirty_nodup _ _ h.dnodup, ?_, ?_, ?_, ?_, ?_, ?_⟩
          · rw [mergePending_keys]
            by_cases hs : (aget st.batch.pendingFields n).isSome
            · simpa [hs] using h.pnodup
            · have hn : n ∉ st.batch.pendingFields.map Prod.fst := by
                rw [← aget_eq_none]
                exact Option.not_isSome_iff_eq_none.mp hs
              simp [hs, List.nodup_append, h.pnodup, hn]
          · intro m fs' hm
            by_cases hmn : m = n
            · subst hmn
              rw [aget_mergePending_self] at hm
              injection hm with hm
              subst hm
              rw [mergeDiff_keys]
              cases hpf : aget st.batch.pendingFields m with
              | none =>
                simp [hpf, aget]
              | some fs =>
                have hnd := h.pfnodup m fs hpf
                by_cases hs : (aget fs k).isSome
                · simpa [hpf, hs] using hnd
                · have hk : k ∉ fs.map Prod.fst := by
                    rw [← aget_eq_none]
                    exact Option.not_isSome_iff_eq_none.mp hs
                  simp [hpf, hs, List.nodup_append, hnd, hk]
            · rw [aget_mergePending_ne _ _ _ _ _ _ hmn] at hm
              exact h.pfnodup m fs' hm
          · intro m hm
            rw [aget_updateSliceState_isSome]
            by_cases hmn : m = n
            · subst hmn; simp [hreg]
            · rw [aget_mergePending_ne _ _ _ _ _ _ hmn] at hm
              exact h.preg m hm
          · intro m hm
            by_cases hmn : m = n
            · subst hmn
              rw [mem_addDirty]
              exact Or.inr rfl
            · rw [aget_mergePending_ne _ _ _ _ _ _ hmn] at hm
              rw [mem_addDirty]
              exact Or.inl (h.pdirty m hm)
          · intro m k2 d hd
            by_cases hmn : m = n
            · subst hmn
              simp only [pendLookup, aget_mergePending_self, Option.some_bind] at hd
              have hstn' : stateOf
                  (⟨updateSliceState st.slices m (setKey sl.state k (jget inc k)),
                    { active := st.batch.active, slices := snaps,
                      dirtySlices := addDirty st.batch.dirtySlices m,
                      pendingFields :=
                        mergePending st.batch.pendingFields m k (jget sl.state k) (jget inc k) }⟩
                    : Store) m = setKey sl.state k (jget inc k) := by
                simp [stateOf, hag2]
              by_cases hk2 : k2 = k
              · subst hk2
                rw [aget_mergeDiff_self] at hd
                injection hd with hd
                subst hd
                rw [hstn']
                cases hpf : aget st.batch.pendingFields m with
                | none =>
                  have hnp : pendLookup st m k2 = none := by
                    simp [pendLookup, hpf]
                  have := h.pcomp m k2 hnp
                  rw [hstn] at this
                  simp [hpf, aget, ← this]
                | some fs =>
                  cases hfs : aget fs k2 with
                  | none =>
                    have hnp : pendLookup st m k2 = none := by
                      simp [pendLookup, hpf, hfs]
                    have := h.pcomp m k2 hnp
                    rw [hstn] at this
                    simp [hpf, hfs, ← this]
                  | some dOld =>
                    have hop : pendLookup st m k2 = some dOld := by
                      simp [pendLookup, hpf, hfs]
                    obtain ⟨hp1, _⟩ := h.pdiff m k2 dOld hop
                    simp [hpf, hfs, hp1]
              · rw [aget_mergeDiff_ne _ _ _ _ _ hk2] at hd
                cases hpf : aget st.batch.pendingFields m with
                | none =>
                  rw [hpf] at hd
                  simp [aget] at hd
                | some fs =>
                  rw [hpf] at hd
                  simp only [Option.getD_some] at hd
                  have hop : pendLookup st m k2 = some d := by
                    simp [pendLookup, hpf, hd]
                  obtain ⟨hp1, hp2⟩ := h.pdiff m k2 d hop
                  refine ⟨hp1, ?_⟩
                  rw [hstn', jget_setKey_ne _ _ _ _ hk2, hp2, hstn]
            · have hpl : pendLookup
                  (⟨updateSliceState st.slices n (setKey sl.state k (jget inc k)),
                    { active := st.batch.active, slices := snaps,
                      dirtySlices := addDirty st.batch.dirtySlices n,
                      pendingFields :=
                        mergePending st.batch.pendingFields n k (jget sl.state k) (jget inc k) }⟩
                    : Store) m k2 = pendLookup st m k2 := by
                simp [pendLookup, aget_mergePending_ne _ _ _ _ _ _ hmn]
              rw [hpl] at hd
              obtain ⟨hp1, hp2⟩ := h.pdiff m k2 d hd
              refine ⟨hp1, ?_⟩
              rw [hp2]
              simp [stateOf, aget_updateSliceState_ne st.slices n _ m hmn]
          · intro m k2 hd
            by_cases hmn : m = n
            · subst hmn
              simp only [pendLookup, aget_mergePending_self, Option.some_bind] at hd
              have hstn' : stateOf
                  (⟨updateSliceState st.slices m (setKey sl.state k (jget inc k)),
                    { active := st.batch.active, slices := snaps,
                      dirtySlices := addDirty st.batch.dirtySlices m,
                      pendingFields :=
                        mergePending st.batch.pendingFields m k (jget sl.state k) (jget inc k) }⟩
                    : Store) m = setKey sl.state k (jget inc k) := by
                simp [stateOf, hag2]
              by_cases hk2 : k2 = k
              · subst hk2
                rw [aget_mergeDiff_self] at hd
                cases hd
              · rw [aget_mergeDiff_ne _ _ _ _ _ hk2] at hd
                have hnp : pendLookup st m k2 = none := by
                  cases hpf : aget st.batch.pendingFields m with
                  | none => simp [pendLookup, hpf]
                  | some fs =>
                    rw [hpf] at hd
                    simp only [Option.getD_some] at hd
                    simp [pendLookup, hpf, hd]
                have hcp := h.pcomp m k2 hnp
                rw [hstn] at hcp
                simpa [hstn', jget_setKey_ne _ _ _ _ hk2] using hcp
            · have hpl : pendLookup
                  (⟨updateSliceState st.slices n (setKey sl.state k (jget inc k)),
                    { active := st.batch.active, slices := snaps,
                      dirtySlices := addDirty st.batch.dirtySlices n,
                      pendingFields :=
                        mergePending st.batch.pendingFields n k (jget sl.state k) (jget inc k) }⟩
                    : Store) m k2 = pendLookup st m k2 := by
                simp [pendLookup, aget_mergePending_ne _ _ _ _ _ _ hmn]
              rw [hpl] at hd
              have := h.pcomp m k2 hd
              simpa [stateOf, aget_updateSliceState_ne st.slices n _ m hmn] using this

end St

namespace St

/-- A `set` inside an active batch fires nothing. -/
theorem setField_evs_batch (st : Store) (n k : String) (v : JVal)
    (h : st.batch.active = true) : (setField st n k v).2.1 = [] := by
  cases hreg : aget st.slices n with
  | none => simp [setField, hreg]
  | some sl =>
    by_cases h1 : jget sl.state k = v
    · simp [setField, hreg, h1]
    · cases hmw : applyMws sl.mw sl.state [(k, v)] with
      | none => simp [setField, hreg, h1, hmw]
      | some inc =>
        by_cases h2 : jget sl.state k = jget inc k
        · simp [setField, hreg, h1, hmw, h2]
        · by_cases hsnap : aget st.batch.slices n = none
          · simp [setField, hreg, h1, hmw, h2, h, hsnap]
          · obtain ⟨s0, hs0⟩ := Option.ne_none_iff_exists'.mp hsnap
            simp [setField, hreg, h1, hmw, h2, h, hs0]

/-- A batch body preserves the coalescing invariant and fires nothing. -/
theorem runOps_binv (st0 : Store) :
    ∀ (ops : List Op) (st : Store), BInv st0 st →
      BInv st0 (runOps st ops).1 ∧ (runOps st ops).2.1 = [] := by
  intro ops
  induction ops with
  | nil => intro st h; exact ⟨h, rfl⟩
  | cons op ops ih =>
    intro st h
    cases op with
    | setOp n k v =>
      have h1 := setField_binv st0 st n k v h
      have h2 := setField_evs_batch st n k v h.act
      obtain ⟨h3, h4⟩ := ih (setField st n k v).1 h1
      simp [runOps, runOp, h2, h4]
      exact h3
    | throwOp e => simpa [runOps, runOp] using h

/-- Whether an event is a field-emitter firing for slice `n`, key `k`. -/
def Event.isFieldFor (n k : String) : Event → Bool
  | .fieldE n2 k2 _ _ => n2 == n && k2 == k
  | _ => false

/-- Whether an event is the slice-emitter firing of slice `n`. -/
def Event.isSliceFor (n : String) : Event → Bool
  | .sliceE n2 _ => n2 == n
  | _ => false

/-- Whether an event is the store-wide emitter firing. -/
def Event.isStore : Event → Bool
  | .storeE => true
  | _ => false

theorem filter_fieldEvts_of_none (n k : String) (fs : List (String × PDiff))
    (h : aget fs k = none) :
    (fs.map (fun q => Event.fieldE n q.1 q.2.value q.2.prev)).filter
      (Event.isFieldFor n k) = [] := by
  induction fs with
  | nil => rfl
  | cons p fs ih =>
    obtain ⟨k2, d⟩ := p
    by_cases he : k2 = k
    · subst he; simp [aget] at h
    · simp [aget, he] at h
      simp [Event.isFieldFor, he, ih h]

theorem filter_fieldEvts_of_some (n k : String) (fs : List (String × PDiff))
    (d : PDiff) (hnd : (fs.map Prod.fst).Nodup) (h : aget fs k = some d) :
    (fs.map (fun q => Event.fieldE n q.1 q.2.value q.2.prev)).filter
      (Event.isFieldFor n k) = [Event.fieldE n k d.value d.prev] := by
  induction fs with
  | nil => simp [aget] at h
  | cons p fs ih =>
    obtain ⟨k2, d2⟩ := p
    by_cases he : k2 = k
    · subst he
      simp [aget] at h
      subst h
      have hkn : aget fs k2 = none := by
        rw [aget_eq_none]
        exact (List.nodup_cons.mp hnd).1
      simp [Event.isFieldFor, filter_fieldEvts_of_none _ _ _ hkn]
    · simp [aget, he] at h
      simp [Event.isFieldFor, he, ih (List.nodup_cons.mp hnd).2 h]

theorem filter_fieldEvts_other (n k m : String) (fs : List (String × PDiff))
    (h : m ≠ n) :
    (fs.map (fun q => Event.fieldE m q.1 q.2.value q.2.prev)).filter
      (Event.isFieldFor n k) = [] := by
  induction fs with
  | nil => rfl
  | cons p fs ih => simp [Event.isFieldFor, h, ih]

end St

namespace St

theorem filter_map_eq_nil {α : Type} (l : List α) (f : α → Event) (p : Event → Bool)
    (h : ∀ x, p (f x) = false) : (l.map f).filter p = [] := by
  induction l with
  | nil => rfl
  | cons x l ih => simp [h, ih]

/-- The flush list of `flushFieldEvs` over explicit registry and pending
lists. -/
def flushList (slices : List (String × Slice))
    (pf : List (String × List (String × PDiff))) : List Event :=
  (pf.map (fun p =>
    if (aget slices p.1).isSome
    then p.2.map (fun q => Event.fieldE p.1 q.1 q.2.value q.2.prev)
    else [])).flatten

theorem flushFieldEvs_eq (st : Store) :
    flushFieldEvs st = flushList st.slices st.batch.pendingFields := rfl

theorem flushList_cons (slices : List (String × Slice))
    (p : String × List (String × PDiff))
    (pf : List (String × List (String × PDiff))) :
    flushList slices (p :: pf) =
      (if (aget slices p.1).isSome
       then p.2.map (fun q => Event.fieldE p.1 q.1 q.2.value q.2.prev) else [])
      ++ flushList slices pf := by
  simp [flushList]

theorem flushList_filter_notmem (slices : List (String × Slice))
    (pf : List (String × List (String × PDiff))) (n k : String)
    (h : n ∉ pf.map Prod.fst) :
    (flushList slices pf).filter (Event.isFieldFor n k) = [] := by
  induction pf with
  | nil => rfl
  | cons p pf ih =>
    obtain ⟨m, fs⟩ := p
    have hm : m ≠ n := fun hc => h (by simp [hc])
    have hrest : n ∉ pf.map Prod.fst := fun hc => h (by simp [hc])
    have hh : (if (aget slices m).isSome
        then fs.map (fun q => Event.fieldE m q.1 q.2.value q.2.prev)
        else []).filter (Event.isFieldFor n k) = [] := by
      by_cases hr : (aget slices m).isSome
      · simp only [if_pos hr]
        exact filter_fieldEvts_other n k m fs hm
      · simp [hr]
    rw [flushList_cons, List.filter_append, hh, ih hrest]
    rfl

theorem flushList_filter_some (slices : List (String × Slice))
    (pf : List (String × List (String × PDiff))) (n k : String) (d : PDiff)
    (hpn : (pf.map Prod.fst).Nodup)
    (hpf : ∀ m fs, aget pf m = some fs → (fs.map Prod.fst).Nodup)
    (hreg : ∀ m, (aget pf m).isSome = true → (aget slices m).isSome = true)
    (hd : (aget pf n).bind (fun fs => aget fs k) = some d) :
    (flushList slices pf).filter (Event.isFieldFor n k) =
      [Event.fieldE n k d.value d.prev] := by
  induction pf with
  | nil => simp [aget] at hd
  | cons p pf ih =>
    obtain ⟨m, fs⟩ := p
    have hnotm : m ∉ pf.map Prod.fst := (List.nodup_cons.mp hpn).1
    by_cases hm : m = n
    · subst hm
      have hdf : aget fs k = some d := by simpa [aget] using hd
      have hregm : (aget slices m).isSome = true := hreg m (by simp [aget])
      have hfsnd : (fs.map Prod.fst).Nodup := hpf m fs (by simp [aget])
      have hrest : (flushList slices pf).filter (Event.isFieldFor m k) = [] :=
        flushList_filter_notmem slices pf m k hnotm
      rw [flushList_cons, List.filter_append]
      simp only [if_pos hregm]
      rw [filter_fieldEvts_of_some m k fs d hfsnd hdf, hrest]
      simp
    · have hd2 : (aget pf n).bind (fun fs => aget fs k) = some d := by
        simpa [aget, hm] using hd
      have hpf2 : ∀ m2 fs2, aget pf m2 = some fs2 → (fs2.map Prod.fst).Nodup := by
        intro m2 fs2 h2
        by_cases hm2 : m2 = m
        · subst hm2
          rw [(aget_eq_none _ _).mpr hnotm] at h2
          cases h2
        · refine hpf m2 fs2 ?_
          simpa [aget, Ne.symm hm2] using h2
      have hreg2 : ∀ m2, (aget pf m2).isSome = true → (aget slices m2).isSome = true := by
        intro m2 h2
        by_cases hm2 : m2 = m
        · subst hm2
          rw [(aget_eq_none _ _).mpr hnotm] at h2
          simp at h2
        · refine hreg m2 ?_
          simpa [aget, Ne.symm hm2] using h2
      have hh : (if (aget slices m).isSome
          then fs.map (fun q => Event.fieldE m q.1 q.2.value q.2.prev)
          else []).filter (Event.isFieldFor n k) = [] := by
        by_cases hr : (aget slices m).isSome
        · simp only [if_pos hr]
          exact filter_fieldEvts_other n k m fs hm
        · simp [hr]
      rw [flushList_cons, List.filter_append, hh,
        ih (List.nodup_cons.mp hpn).2 hpf2 hreg2 hd2]
      rfl

theorem flushList_filter_slice (slices : List (String × Slice))
    (pf : List (String × List (String × PDiff))) (n : String) :
    (flushList slices pf).filter (Event.isSliceFor n) = [] := by
  induction pf with
  | nil => rfl
  | cons p pf ih =>
    have hh : (if (aget slices p.1).isSome
        then p.2.map (fun q => Event.fieldE p.1 q.1 q.2.value q.2.prev)
        else []).filter (Event.isSliceFor n) = [] := by
      by_cases hr : (aget slices p.1).isSome
      · simp only [if_pos hr]
        exact filter_map_eq_nil _ _ _ (fun x => rfl)
      · simp [hr]
    simp [flushList, List.filter_append, hh] at ih ⊢
    exact ih

theorem flushList_filter_store (slices : List (String × Slice))
    (pf : List (String × List (String × PDiff))) :
    (flushList slices pf).filter Event.isStore = [] := by
  induction pf with
  | nil => rfl
  | cons p pf ih =>
    have hh : (if (aget slices p.1).isSome
        then p.2.map (fun q => Event.fieldE p.1 q.1 q.2.value q.2.prev)
        else []).filter Event.isStore = [] := by
      by_cases hr : (aget slices p.1).isSome
      · simp only [if_pos hr]
        exact filter_map_eq_nil _ _ _ (fun x => rfl)
      · simp [hr]
    simp [flushList, List.filter_append, hh] at ih ⊢
    exact ih

theorem flushSlice_filter_notmem (slices : List (String × Slice))
    (dirty : List String) (n : String) (h : n ∉ dirty) :
    ((dirty.filterMap (fun m =>
      (aget slices m).map (fun sl => Event.sliceE m sl.state))).filter
        (Event.isSliceFor n)) = [] := by
  rw [List.filter_eq_nil_iff]
  intro a ha
  rw [List.mem_filterMap] at ha
  obtain ⟨m, hmem, hfa⟩ := ha
  cases hag : aget slices m with
  | none => rw [hag] at hfa; cases hfa
  | some sl =>
    rw [hag, Option.map_some'] at hfa
    injection hfa with hfa
    subst hfa
    have hm : m ≠ n := fun hc => h (hc ▸ hmem)
    simp [Event.isSliceFor, hm]

theorem flushSlice_filter_le (slices : List (String × Slice))
    (dirty : List String) (n : String) (hnd : dirty.Nodup) :
    ((dirty.filterMap (fun m =>
      (aget slices m).map (fun sl => Event.sliceE m sl.state))).filter
        (Event.isSliceFor n)).length ≤ 1 := by
  induction dirty with
  | nil => simp
  | cons m dirty ih =>
    have hnotm := (List.nodup_cons.mp hnd).1
    have hnd2 := (List.nodup_cons.mp hnd).2
    by_cases hm : m = n
    · subst hm
      cases hag : aget slices m with
      | none => simpa [hag] using ih hnd2
      | some sl =>
        simp [hag, Event.isSliceFor, flushSlice_filter_notmem slices dirty m hnotm]
    · cases hag : aget slices m with
      | none => simpa [hag] using ih hnd2
      | some sl => simpa [hag, Event.isSliceFor, hm] using ih hnd2

theorem flushSlice_filter_field (slices : List (String × Slice))
    (dirty : List String) (n k : String) :
    ((dirty.filterMap (fun m =>
      (aget slices m).map (fun sl => Event.sliceE m sl.state))).filter
        (Event.isFieldFor n k)) = [] := by
  induction dirty with
  | nil => rfl
  | cons m dirty ih =>
    cases hag : aget slices m with
    | none => simpa [hag] using ih
    | some sl => simpa [hag, Event.isFieldFor] using ih

theorem flushSlice_filter_store (slices : List (String × Slice))
    (dirty : List String) :
    ((dirty.filterMap (fun m =>
      (aget slices m).map (fun sl => Event.sliceE m sl.state))).filter
        Event.isStore) = [] := by
  induction dirty with
  | nil => rfl
  | cons m dirty ih =>
    cases hag : aget slices m with
    | none => simpa [hag] using ih
    | some sl => simpa [hag, Event.isStore] using ih

end St

namespace St

theorem flushSliceEvs_filter_field (st : Store) (n k : String) :
    (flushSliceEvs st).filter (Event.isFieldFor n k) = [] :=
  flushSlice_filter_field st.slices st.batch.dirtySlices n k

theorem flushSliceEvs_filter_store (st : Store) :
    (flushSliceEvs st).filter Event.isStore = [] :=
  flushSlice_filter_store st.slices st.batch.dirtySlices

theorem flushSliceEvs_filter_le (st : Store) (n : String)
    (h : st.batch.dirtySlices.Nodup) :
    ((flushSliceEvs st).filter (Event.isSliceFor n)).length ≤ 1 :=
  flushSlice_filter_le st.slices st.batch.dirtySlices n h

/-- A store whose batch has no dirty slices has no pending fields either,
given the pending-implies-dirty invariant. -/
theorem pendingFields_nil (st2 : Store)
    (hdirty : st2.batch.dirtySlices = [])
    (hpd : ∀ n, (aget st2.batch.pendingFields n).isSome = true →
      n ∈ st2.batch.dirtySlices) :
    st2.batch.pendingFields = [] := by
  cases hpf : st2.batch.pendingFields with
  | nil => rfl
  | cons p rest =>
    exfalso
    have h1 : (aget st2.batch.pendingFields p.1).isSome = true := by
      rw [hpf]
      obtain ⟨a, b⟩ := p
      simp [aget]
    have h2 := hpd p.1 h1
    rw [hdirty] at h2
    cases h2

end St

/-- C8 — Batch coalescing (`SliceHandle.set` lines 92-106, `SlicedStore.batch`
lines 320-344): during a successfully completing batch no emitter fires;
every field with a pending diff has its `prev` equal to the field's
pre-batch value (kept from the first write) and its `value` equal to the
field's final value (overwritten by each later write), and at batch
completion that field's emitter fires exactly once, with exactly that
payload; each slice's emitter and the store-wide emitter fire at most once
per batch, and if no slice was dirtied no emitter fires at all. -/
theorem C8_batch_coalescing (st : St.Store) (ops : List St.Op)
    (hna : st.batch.active = false)
    (hok : (St.runOps (St.startBatch st) ops).2.2 = none) :
    (St.runOps (St.startBatch st) ops).2.1 = [] ∧
    (∀ n k d, St.pendLookup (St.runOps (St.startBatch st) ops).1 n k = some d →
      d.prev = St.jget (St.stateOf st n) k ∧
      d.value = St.jget (St.stateOf (St.runOps (St.startBatch st) ops).1 n) k ∧
      ((St.batchRun st ops).2.1.filter (St.Event.isFieldFor n k)) =
        [St.Event.fieldE n k d.value d.prev]) ∧
    (∀ n, ((St.batchRun st ops).2.1.filter (St.Event.isSliceFor n)).length ≤ 1) ∧
    (((St.batchRun st ops).2.1.filter St.Event.isStore).length ≤ 1) ∧
    ((St.runOps (St.startBatch st) ops).1.batch.dirtySlices = [] →
      (St.batchRun st ops).2.1 = []) := by
  obtain ⟨hinv, hevs⟩ := St.runOps_binv st ops (St.startBatch st) (St.binv_start st)
  have hbr : (St.batchRun st ops).2.1 =
      St.flushFieldEvs (St.runOps (St.startBatch st) ops).1 ++
      St.flushSliceEvs (St.runOps (St.startBatch st) ops).1 ++
      (if (St.runOps (St.startBatch st) ops).1.batch.dirtySlices = []
       then [] else [St.Event.storeE]) := by
    simp [St.batchRun, hna, hok, hevs]
  refine ⟨hevs, ?_, ?_, ?_, ?_⟩
  · intro n k d hd
    obtain ⟨hp1, hp2⟩ := hinv.pdiff n k d hd
    refine ⟨hp1, hp2, ?_⟩
    have hsp : (if (St.runOps (St.startBatch st) ops).1.batch.dirtySlices = []
        then ([] : List St.Event) else [St.Event.storeE]).filter
          (St.Event.isFieldFor n k) = [] := by
      split <;> simp [St.Event.isFieldFor]
    rw [hbr, List.filter_append, List.filter_append, St.flushFieldEvs_eq,
      St.flushList_filter_some _ _ n k d hinv.pnodup hinv.pfnodup hinv.preg hd,
      St.flushSliceEvs_filter_field, hsp]
    simp
  · intro n
    have hsp : (if (St.runOps (St.startBatch st) ops).1.batch.dirtySlices = []
        then ([] : List St.Event) else [St.Event.storeE]).filter
          (St.Event.isSliceFor n) = [] := by
      split <;> simp [St.Event.isSliceFor]
    rw [hbr, List.filter_append, List.filter_append, St.flushFieldEvs_eq,
      St.flushList_filter_slice, hsp]
    simpa using St.flushSliceEvs_filter_le _ n hinv.dnodup
  · have hsp : ((if (St.runOps (St.startBatch st) ops).1.batch.dirtySlices = []
        then ([] : List St.Event) else [St.Event.storeE]).filter
          St.Event.isStore).length ≤ 1 := by
      split <;> simp [St.Event.isStore]
    rw [hbr, List.filter_append, List.filter_append, St.flushFieldEvs_eq,
      St.flushList_filter_store, St.flushSliceEvs_filter_store]
    simpa using hsp
  · intro hdirt
    have hpfnil := St.pendingFields_nil _ hdirt hinv.pdirty
    rw [hbr, hdirt, St.flushFieldEvs_eq, hpfnil]
    simp [St.flushList, St.flushSliceEvs, hdirt]

/-- Concrete store for the C8 witness: two fields, one written twice in a
batch, one written once. -/
def c8Store : St.Store :=
  ⟨[("wallet", ⟨[("bet", some 1), ("balance", some 1000)],
     [("bet", some 1), ("balance", some 1000)], []⟩)], St.emptyCtx⟩

/-- Witness for C8: after a batch writing `bet` twice, the pending diff for
`bet` holds `(prev 1, value 20)`, the flush fires its field emitter exactly
once with that payload, and slice/store emitters fire at most once. -/
theorem C8_batch_coalescing_witness :
    (St.runOps (St.startBatch c8Store)
      [.setOp "wallet" "bet" (some 5), .setOp "wallet" "bet" (some 20)]).2.1 = [] ∧
    ((St.batchRun c8Store
      [.setOp "wallet" "bet" (some 5), .setOp "wallet" "bet" (some 20)]).2.1.filter
        (St.Event.isFieldFor "wallet" "bet")) =
      [St.Event.fieldE "wallet" "bet" (some 20) (some 1)] ∧
    ((St.batchRun c8Store
      [.setOp "wallet" "bet" (some 5), .setOp "wallet" "bet" (some 20)]).2.1.filter
        (St.Event.isSliceFor "wallet")).length ≤ 1 ∧
    ((St.batchRun c8Store
      [.setOp "wallet" "bet" (some 5), .setOp "wallet" "bet" (some 20)]).2.1.filter
        St.Event.isStore).length ≤ 1 := by
  have h := C8_batch_coalescing c8Store
    [.setOp "wallet" "bet" (some 5), .setOp "wallet" "bet" (some 20)] rfl (by rfl)
  have hpend : St.pendLookup
      (St.runOps (St.startBatch c8Store)
        [.setOp "wallet" "bet" (some 5), .setOp "wallet" "bet" (some 20)]).1
      "wallet" "bet" = some ⟨some 1, some 20⟩ := by rfl
  obtain ⟨h1, h2, h3, h4, _⟩ := h
  exact ⟨h1, (h2 "wallet" "bet" ⟨some 1, some 20⟩ hpend).2.2, h3 "wallet", h4⟩

namespace St

theorem mem_insKeys (x : String) : ∀ (l acc : List String),
    x ∈ insKeys acc l ↔ x ∈ acc ∨ x ∈ l := by
  intro l
  induction l with
  | nil => intro acc; simp [insKeys]
  | cons k ks ih =>
    intro acc
    rw [insKeys, ih]
    by_cases hk : k ∈ acc
    · simp only [if_pos hk]
      constructor
      · rintro (h | h)
        · exact Or.inl h
        · exact Or.inr (List.mem_cons_of_mem _ h)
      · rintro (h | h)
        · exact Or.inl h
        · rcases List.mem_cons.mp h with rfl | h
          · exact Or.inl hk
          · exact Or.inr h
    · simp only [if_neg hk]
      constructor
      · rintro (h | h)
        · rcases List.mem_append.mp h with h | h
          · exact Or.inl h
          · simp at h
            subst h
            exact Or.inr (List.mem_cons_self _ _)
        · exact Or.inr (List.mem_cons_of_mem _ h)
      · rintro (h | h)
        · exact Or.inl (List.mem_append.mpr (Or.inl h))
        · rcases List.mem_cons.mp h with rfl | h
          · exact Or.inl (List.mem_append.mpr (Or.inr (by simp)))
          · exact Or.inr h

theorem mem_allKeys_of_changed (old nw : Obj) (k : String)
    (h : jget old k ≠ jget nw k) : k ∈ allKeys old nw := by
  rw [allKeys, mem_insKeys]
  refine Or.inr (List.mem_append.mpr ?_)
  by_cases ho : k ∈ old.map Prod.fst
  · exact Or.inl ho
  · by_cases hn : k ∈ nw.map Prod.fst
    · exact Or.inr hn
    · exfalso
      apply h
      rw [jget, jget, (aget_eq_none _ _).mpr ho, (aget_eq_none _ _).mpr hn]

theorem foldl_pending_active (n : String) (old nw : Obj) :
    ∀ (ks : List String) (b2 : BatchCtx),
      (ks.foldl (fun b3 k =>
        if jget old k = jget nw k then b3
        else { b3 with
          pendingFields := mergePending b3.pendingFields n k (jget old k) (jget nw k) })
        b2).active = b2.active := by
  intro ks
  induction ks with
  | nil => intro b2; rfl
  | cons k ks ih =>
    intro b2
    rw [List.foldl_cons]
    by_cases hc : jget old k = jget nw k
    · rw [if_pos hc]; exact ih b2
    · rw [if_neg hc]; exact ih _

theorem notifySliceChanges_active (b : BatchCtx) (n : String) (old nw : Obj) :
    (notifySliceChanges b n old nw).1.active = b.active := by
  rw [notifySliceChanges]
  by_cases hb : b.active
  · simp only [if_pos hb]
    exact foldl_pending_active n old nw _ _
  · simp [hb]

theorem notifySliceChanges_evs_batch (b : BatchCtx) (n : String) (old nw : Obj)
    (h : b.active = true) : (notifySliceChanges b n old nw).2 = [] := by
  simp [notifySliceChanges, h]

theorem notifySliceChanges_evs_immediate (b : BatchCtx) (n : String) (old nw : Obj)
    (h : b.active = false) :
    (notifySliceChanges b n old nw).2 =
      ((allKeys old nw).filterMap (fun k =>
        if jget old k = jget nw k then none
        else some (Event.fieldE n k (jget nw k) (jget old k)))) ++ [Event.sliceE n nw] := by
  simp [notifySliceChanges, h]

end St

namespace St

theorem restoreStep_aget_ne (acc : Store × List Event × Bool) (m : String)
    (rv : RVal) (n : String) (h : n ≠ m) :
    aget (restoreStep acc (m, rv)).1.slices n = aget acc.1.slices n := by
  rw [restoreStep]
  cases hag : aget acc.1.slices m with
  | none => cases rv <;> simp [hag]
  | some sl =>
    cases rv with
    | nonObj => simp [hag]
    | obj d =>
      simp only [hag]
      exact aget_updateSliceState_ne _ _ _ _ h

theorem restoreStep_aget_self (acc : Store × List Event × Bool) (m : String)
    (d : Obj) (sl : Slice) (hag : aget acc.1.slices m = some sl) :
    aget (restoreStep acc (m, RVal.obj d)).1.slices m
      = some { sl with state := mergeRec sl.defaults d } := by
  rw [restoreStep]
  simp only [hag]
  exact aget_updateSliceState _ _ _ _ hag

theorem restoreStep_nonObj (acc : Store × List Event × Bool) (m : String) :
    restoreStep acc (m, RVal.nonObj) = acc := by
  rw [restoreStep]
  cases hag : aget acc.1.slices m <;> simp [hag]

theorem restoreStep_isSome (acc : Store × List Event × Bool) (e : String × RVal)
    (n : String) :
    (aget (restoreStep acc e).1.slices n).isSome = (aget acc.1.slices n).isSome := by
  obtain ⟨m, rv⟩ := e
  rw [restoreStep]
  cases hag : aget acc.1.slices m with
  | none => cases rv <;> simp [hag]
  | some sl =>
    cases rv with
    | nonObj => simp [hag]
    | obj d =>
      simp only [hag]
      exact aget_updateSliceState_isSome _ _ _ _

theorem restoreStep_active (acc : Store × List Event × Bool) (e : String × RVal) :
    (restoreStep acc e).1.batch.active = acc.1.batch.active := by
  obtain ⟨m, rv⟩ := e
  rw [restoreStep]
  cases hag : aget acc.1.slices m with
  | none => cases rv <;> simp [hag]
  | some sl =>
    cases rv with
    | nonObj => simp [hag]
    | obj d =>
      simp only [hag]
      rw [notifySliceChanges_active]
      by_cases hsn : acc.1.batch.active = true ∧ aget acc.1.batch.slices m = none <;>
        simp [hsn]

theorem restoreStep_evs_batch (acc : Store × List Event × Bool) (e : String × RVal)
    (h : acc.1.batch.active = true) :
    (restoreStep acc e).2.1 = acc.2.1 := by
  obtain ⟨m, rv⟩ := e
  rw [restoreStep]
  cases hag : aget acc.1.slices m with
  | none => cases rv <;> simp [hag]
  | some sl =>
    cases rv with
    | nonObj => simp [hag]
    | obj d =>
      simp only [hag]
      rw [notifySliceChanges_evs_batch]
      · simp
      · by_cases hsn : aget acc.1.batch.slices m = none <;> simp [hsn, h]

theorem restoreStep_evs_mono (acc : Store × List Event × Bool) (e : String × RVal)
    (x : Event) (h : x ∈ acc.2.1) : x ∈ (restoreStep acc e).2.1 := by
  obtain ⟨m, rv⟩ := e
  rw [restoreStep]
  cases hag : aget acc.1.slices m with
  | none => cases rv <;> simpa [hag] using h
  | some sl =>
    cases rv with
    | nonObj => simpa [hag] using h
    | obj d =>
      simp only [hag]
      exact List.mem_append.mpr (Or.inl h)

end St

namespace St

theorem foldl_restore_aget_notmem :
    ∀ (data : List (String × RVal)) (acc : Store × List Event × Bool) (n : String),
      n ∉ data.map Prod.fst →
      aget (data.foldl restoreStep acc).1.slices n = aget acc.1.slices n := by
  intro data
  induction data with
  | nil => intro acc n _; rfl
  | cons p data ih =>
    obtain ⟨m, rv⟩ := p
    intro acc n h
    have hnm : n ≠ m := fun hc => h (by simp [hc])
    have hrest : n ∉ data.map Prod.fst := fun hc => h (by simp [hc])
    rw [List.foldl_cons, ih _ n hrest, restoreStep_aget_ne _ _ _ _ hnm]

theorem foldl_restore_isSome :
    ∀ (data : List (String × RVal)) (acc : Store × List Event × Bool) (n : String),
      (aget (data.foldl restoreStep acc).1.slices n).isSome
        = (aget acc.1.slices n).isSome := by
  intro data
  induction data with
  | nil => intro acc n; rfl
  | cons p data ih =>
    intro acc n
    rw [List.foldl_cons, ih _ n, restoreStep_isSome]

theorem foldl_restore_active :
    ∀ (data : List (String × RVal)) (acc : Store × List Event × Bool),
      (data.foldl restoreStep acc).1.batch.active = acc.1.batch.active := by
  intro data
  induction data with
  | nil => intro acc; rfl
  | cons p data ih =>
    intro acc
    rw [List.foldl_cons, ih _, restoreStep_active]

theorem foldl_restore_evs_batch :
    ∀ (data : List (String × RVal)) (acc : Store × List Event × Bool),
      acc.1.batch.active = true →
      (data.foldl restoreStep acc).2.1 = acc.2.1 := by
  intro data
  induction data with
  | nil => intro acc _; rfl
  | cons p data ih =>
    intro acc h
    have h2 : (restoreStep acc p).1.batch.active = true := by
      rw [restoreStep_active]; exact h
    rw [List.foldl_cons, ih _ h2, restoreStep_evs_batch _ _ h]

theorem foldl_restore_evs_mono :
    ∀ (data : List (String × RVal)) (acc : Store × List Event × Bool) (x : Event),
      x ∈ acc.2.1 → x ∈ (data.foldl restoreStep acc).2.1 := by
  intro data
  induction data with
  | nil => intro acc x h; exact h
  | cons p data ih =>
    intro acc x h
    rw [List.foldl_cons]
    exact ih _ x (restoreStep_evs_mono _ _ x h)

theorem foldl_restore_state :
    ∀ (data : List (String × RVal)) (acc : Store × List Event × Bool)
      (n : String) (d : Obj) (sl : Slice),
      (data.map Prod.fst).Nodup →
      (n, RVal.obj d) ∈ data →
      aget acc.1.slices n = some sl →
      aget (data.foldl restoreStep acc).1.slices n
        = some { sl with state := mergeRec sl.defaults d } := by
  intro data
  induction data with
  | nil => intro acc n d sl _ hmem; cases hmem
  | cons p data ih =>
    obtain ⟨m, rv⟩ := p
    intro acc n d sl hnd hmem hag
    rcases List.mem_cons.mp hmem with heq | hmem2
    · obtain ⟨h1, h2⟩ := Prod.mk.injEq .. ▸ heq
      subst h1
      subst h2
      rw [List.foldl_cons]
      have hnotin : n ∉ data.map Prod.fst := (List.nodup_cons.mp hnd).1
      rw [foldl_restore_aget_notmem data _ n hnotin]
      exact restoreStep_aget_self acc n d sl hag
    · have hm : n ≠ m := by
        intro hc
        subst hc
        exact (List.nodup_cons.mp hnd).1
          (List.mem_map.mpr ⟨(n, RVal.obj d), hmem2, rfl⟩)
      rw [List.foldl_cons]
      refine ih _ n d sl (List.nodup_cons.mp hnd).2 hmem2 ?_
      rw [restoreStep_aget_ne _ _ _ _ hm]
      exact hag

theorem foldl_restore_nonobj :
    ∀ (data : List (String × RVal)) (acc : Store × List Event × Bool) (n : String),
      (data.map Prod.fst).Nodup →
      (n, RVal.nonObj) ∈ data →
      aget (data.foldl restoreStep acc).1.slices n = aget acc.1.slices n := by
  intro data
  induction data with
  | nil => intro acc n _ hmem; cases hmem
  | cons p data ih =>
    obtain ⟨m, rv⟩ := p
    intro acc n hnd hmem
    rcases List.mem_cons.mp hmem with heq | hmem2
    · obtain ⟨h1, h2⟩ := Prod.mk.injEq .. ▸ heq
      subst h1
      subst h2
      rw [List.foldl_cons]
      have hnotin : n ∉ data.map Prod.fst := (List.nodup_cons.mp hnd).1
      rw [foldl_restore_aget_notmem data _ n hnotin, restoreStep_nonObj]
    · have hm : n ≠ m := by
        intro hc
        subst hc
        exact (List.nodup_cons.mp hnd).1
          (List.mem_map.mpr ⟨(n, RVal.nonObj), hmem2, rfl⟩)
      rw [List.foldl_cons]
      rw [ih _ n (List.nodup_cons.mp hnd).2 hmem2, restoreStep_aget_ne _ _ _ _ hm]

end St

namespace St

theorem foldl_restore_events :
    ∀ (data : List (String × RVal)) (acc : Store × List Event × Bool)
      (n : String) (d : Obj) (sl : Slice),
      (data.map Prod.fst).Nodup →
      (n, RVal.obj d) ∈ data →
      aget acc.1.slices n = some sl →
      acc.1.batch.active = false →
      (∀ k, jget sl.state k ≠ jget (mergeRec sl.defaults d) k →
        Event.fieldE n k (jget (mergeRec sl.defaults d) k) (jget sl.state k)
          ∈ (data.foldl restoreStep acc).2.1) ∧
      Event.sliceE n (mergeRec sl.defaults d) ∈ (data.foldl restoreStep acc).2.1 := by
  intro data
  induction data with
  | nil => intro acc n d sl _ hmem; cases hmem
  | cons p data ih =>
    obtain ⟨m, rv⟩ := p
    intro acc n d sl hnd hmem hag hact
    rcases List.mem_cons.mp hmem with heq | hmem2
    · obtain ⟨h1, h2⟩ := Prod.mk.injEq .. ▸ heq
      subst h1
      subst h2
      rw [List.foldl_cons]
      have hcond : ¬(acc.1.batch.active = true ∧ aget acc.1.batch.slices n = none) := by
        simp [hact]
      constructor
      · intro k hk
        apply foldl_restore_evs_mono
        rw [restoreStep]
        simp only [hag, if_neg hcond]
        rw [notifySliceChanges_evs_immediate _ _ _ _ hact]
        refine List.mem_append.mpr (Or.inr (List.mem_append.mpr (Or.inl ?_)))
        refine List.mem_filterMap.mpr ⟨k, mem_allKeys_of_changed _ _ k hk, ?_⟩
        rw [if_neg hk]
      · apply foldl_restore_evs_mono
        rw [restoreStep]
        simp only [hag, if_neg hcond]
        rw [notifySliceChanges_evs_immediate _ _ _ _ hact]
        exact List.mem_append.mpr (Or.inr (List.mem_append.mpr (Or.inr (by simp))))
    · have hm : n ≠ m := by
        intro hc
        subst hc
        exact (List.nodup_cons.mp hnd).1
          (List.mem_map.mpr ⟨(n, RVal.obj d), hmem2, rfl⟩)
      rw [List.foldl_cons]
      refine ih _ n d sl (List.nodup_cons.mp hnd).2 hmem2 ?_ ?_
      · rw [restoreStep_aget_ne _ _ _ _ hm]
        exact hag
      · rw [restoreStep_active]
        exact hact

theorem restoreStore_fst (st : Store) (data : List (String × RVal)) :
    (restoreStore st data).1 = (data.foldl restoreStep (st, [], false)).1 := by
  rw [restoreStore]
  split <;> rfl

theorem restoreStore_evs_mono (st : Store) (data : List (String × RVal)) (x : Event)
    (h : x ∈ (data.foldl restoreStep (st, [], false)).2.1) :
    x ∈ (restoreStore st data).2 := by
  rw [restoreStore]
  split
  · exact List.mem_append.mpr (Or.inl h)
  · exact h

theorem restoreStore_evs_batch (st : Store) (data : List (String × RVal))
    (h : st.batch.active = true) : (restoreStore st data).2 = [] := by
  rw [restoreStore]
  have h1 : (data.foldl restoreStep (st, [], false)).1.batch.active = true := by
    rw [foldl_restore_active]
    exact h
  rw [if_neg (by simp [h1])]
  exact foldl_restore_evs_batch data _ h

end St

/-- Concrete store for the C6 counterexample: slice `"w"` has defaults
`{a: 1, b: 2}`. -/
def c6Store : St.Store :=
  ⟨[("w", ⟨[("a", some 1), ("b", some 2)], [("a", some 1), ("b", some 2)], []⟩)],
   St.emptyCtx⟩

/-- Counterexample for C6 as stated: `restore({w: {a: 5}})` does not make the
slice's state equal to (a deep clone of) the incoming value `{a: 5}` — the
source (src/index.ts line 386) spreads the incoming data over a clone of
the slice's defaults, so the missing field `b` is reset to its default
value `2` instead of disappearing. -/
theorem C6_restore_counterexample :
    St.stateOf (St.restoreStore c6Store [("w", St.RVal.obj [("a", some 5)])]).1 "w"
      ≠ [("a", some 5)] := by
  decide

/-- C6 (amended) — Restore semantics (`SlicedStore.restore`, src/index.ts
lines 365-395), for restore data with distinct slice names: for every slice
name in `data` that is registered and carries object-valued data, the
slice's state afterwards equals the incoming object spread over a clone of
the slice's defaults (fields absent from the incoming data are reset to
their defaults — not a plain replacement by the incoming value); slice
names that are not registered are ignored without error and the registry is
unchanged; registered slices absent from `data` (or present with non-object
data) keep their state; and the changed fields are notified through the
same diff/notify path as `set` — deferred (no emitter fires) when a batch
is active, and when no batch is active each changed field's emitter payload
`(new, old)` and the slice emitter payload (the full new state) appear in
the firing sequence. -/
theorem C6_restore_semantics (st : St.Store) (data : List (String × St.RVal))
    (hnd : (data.map Prod.fst).Nodup) :
    (∀ n, (St.aget (St.restoreStore st data).1.slices n).isSome
      = (St.aget st.slices n).isSome) ∧
    (∀ n d sl, (n, St.RVal.obj d) ∈ data → St.aget st.slices n = some sl →
      St.stateOf (St.restoreStore st data).1 n = St.mergeRec sl.defaults d) ∧
    (∀ n, n ∉ data.map Prod.fst →
      St.stateOf (St.restoreStore st data).1 n = St.stateOf st n) ∧
    (∀ n, (n, St.RVal.nonObj) ∈ data →
      St.stateOf (St.restoreStore st data).1 n = St.stateOf st n) ∧
    (st.batch.active = true → (St.restoreStore st data).2 = []) ∧
    (st.batch.active = false →
      ∀ n d sl, (n, St.RVal.obj d) ∈ data → St.aget st.slices n = some sl →
        (∀ k, St.jget sl.state k ≠ St.jget (St.mergeRec sl.defaults d) k →
          St.Event.fieldE n k (St.jget (St.mergeRec sl.defaults d) k)
            (St.jget sl.state k) ∈ (St.restoreStore st data).2) ∧
        St.Event.sliceE n (St.mergeRec sl.defaults d) ∈ (St.restoreStore st data).2) := by
  refine ⟨?_, ?_, ?_, ?_, ?_, ?_⟩
  · intro n
    rw [St.restoreStore_fst, St.foldl_restore_isSome]
  · intro n d sl hmem hag
    rw [St.restoreStore_fst, St.stateOf,
      St.foldl_restore_state data _ n d sl hnd hmem hag]
    rfl
  · intro n hn
    rw [St.restoreStore_fst, St.stateOf, St.foldl_restore_aget_notmem data _ n hn]
    rfl
  · intro n hmem
    rw [St.restoreStore_fst, St.stateOf, St.foldl_restore_nonobj data _ n hnd hmem]
    rfl
  · exact St.restoreStore_evs_batch st data
  · intro hact n d sl hmem hag
    obtain ⟨h1, h2⟩ := St.foldl_restore_events data (st, [], false) n d sl hnd hmem hag hact
    exact ⟨fun k hk => St.restoreStore_evs_mono st data _ (h1 k hk),
      St.restoreStore_evs_mono st data _ h2⟩

/-- Concrete store for the C6 witness: two slices, one restored from partial
data, one given non-object data. -/
def c6wStore : St.Store :=
  ⟨[("w", ⟨[("a", some 10), ("b", some 20)], [("a", some 1), ("b", some 2)], []⟩),
    ("x", ⟨[("c", some 3)], [("c", some 3)], []⟩)],
   St.emptyCtx⟩

/-- Witness for the amended C6: restoring `{w: {a: 5}, zz: {...}, x: 7}`
merges `{a: 5}` over `w`'s defaults, ignores the unregistered `zz`, leaves
`x` (non-object data) untouched, and fires the field events for the changed
fields `a` and `b` plus `w`'s slice event. -/
theorem C6_restore_semantics_witness :
    St.stateOf (St.restoreStore c6wStore
      [("w", St.RVal.obj [("a", some 5)]), ("zz", St.RVal.obj [("q", some 0)]),
       ("x", St.RVal.nonObj)]).1 "w" = [("a", some 5), ("b", some 2)] ∧
    St.stateOf (St.restoreStore c6wStore
      [("w", St.RVal.obj [("a", some 5)]), ("zz", St.RVal.obj [("q", some 0)]),
       ("x", St.RVal.nonObj)]).1 "x" = [("c", some 3)] ∧
    (St.aget (St.restoreStore c6wStore
      [("w", St.RVal.obj [("a", some 5)]), ("zz", St.RVal.obj [("q", some 0)]),
       ("x", St.RVal.nonObj)]).1.slices "zz").isSome = false ∧
    St.Event.fieldE "w" "a" (some 5) (some 10) ∈ (St.restoreStore c6wStore
      [("w", St.RVal.obj [("a", some 5)]), ("zz", St.RVal.obj [("q", some 0)]),
       ("x", St.RVal.nonObj)]).2 ∧
    St.Event.sliceE "w" [("a", some 5), ("b", some 2)] ∈ (St.restoreStore c6wStore
      [("w", St.RVal.obj [("a", some 5)]), ("zz", St.RVal.obj [("q", some 0)]),
       ("x", St.RVal.nonObj)]).2 := by
  have h := C6_restore_semantics c6wStore
    [("w", St.RVal.obj [("a", some 5)]), ("zz", St.RVal.obj [("q", some 0)]),
     ("x", St.RVal.nonObj)] (by decide)
  obtain ⟨hreg, hst, habs, hnon, _, hevs⟩ := h
  have hw := hst "w" [("a", some 5)]
    ⟨[("a", some 10), ("b", some 20)], [("a", some 1), ("b", some 2)], []⟩
    (by simp) rfl
  have hx := hnon "x" (by simp)
  have hz := hreg "zz"
  obtain ⟨hf, hs⟩ := hevs rfl "w" [("a", some 5)]
    ⟨[("a", some 10), ("b", some 20)], [("a", some 1), ("b", some 2)], []⟩
    (by simp) rfl
  refine ⟨by simpa [St.mergeRec, St.aget] using hw,
    by simp [St.stateOf, St.aget, c6wStore], by simp [c6wStore, St.aget],
    ?_, by simpa [St.mergeRec, St.aget] using hs⟩
  have := hf "a" (by decide)
  simpa [St.mergeRec, St.aget, St.jget] using this

namespace DC

/-- A JS runtime value with object identity: a primitive, or an object
carrying its identity tag and its fields.  `Object.is` on objects compares
the tag; mutation through a reference affects every occurrence of its
tag. -/
inductive DVal where
  | prim : Int → DVal
  | obj : Nat → List (String × DVal) → DVal

/-- A slice's internal state in this model. -/
abbrev DState := List (String × DVal)

mutual
/-- Identity tags reachable in a value. -/
def idsV : DVal → List Nat
  | .prim _ => []
  | .obj i fs => i :: idsF fs
/-- Identity tags reachable in a field list. -/
def idsF : List (String × DVal) → List Nat
  | [] => []
  | (_, v) :: fs => idsV v ++ idsF fs
end

mutual
/-- `structuredClone`: same structure and content, fresh identity tags
allocated from counter `c` upward. -/
def scloneV : DVal → Nat → DVal × Nat
  | .prim n, c => (.prim n, c)
  | .obj _ fs, c =>
    let r := scloneF fs (c + 1)
    (.obj c r.1, r.2)
def scloneF : List (String × DVal) → Nat → List (String × DVal) × Nat
  | [], c => ([], c)
  | (k, v) :: fs, c =>
    let r1 := scloneV v c
    let r2 := scloneF fs r1.2
    ((k, r1.1) :: r2.1, r2.2)
end

mutual
/-- Mutation through a reference with identity `t`: every object node with
that identity is replaced by `w` — what a caller holding that reference can
do to the object graph. -/
def mutV (t : Nat) (w : DVal) : DVal → DVal
  | .prim n => .prim n
  | .obj i fs => if i = t then w else .obj i (mutF t w fs)
def mutF (t : Nat) (w : DVal) : List (String × DVal) → List (String × DVal)
  | [] => []
  | (k, v) :: fs => (k, mutV t w v) :: mutF t w fs
end

mutual
/-- Value content with identity tags erased. -/
def stripV : DVal → DVal
  | .prim n => .prim n
  | .obj _ fs => .obj 0 (stripF fs)
def stripF : List (String × DVal) → List (String × DVal)
  | [] => []
  | (k, v) :: fs => (k, stripV v) :: stripF fs
end

/-- `SliceHandle.get` (src/index.ts lines 61-63): `return this._state[key]`
— the stored value itself, with its stored identity; no clone. -/
def getD (st : DState) (k : String) : Option DVal :=
  St.aget st k

/-- `SliceHandle.getAll` (src/index.ts lines 65-67):
`structuredClone(this._state)` under allocation counter `c`. -/
def getAllD (st : DState) (c : Nat) : DState × Nat :=
  scloneF st c

mutual
theorem scloneV_mono : ∀ (v : DVal) (c : Nat), c ≤ (scloneV v c).2
  | .prim _, _ => le_refl _
  | .obj _ fs, c => by
    have h := scloneF_mono fs (c + 1)
    simp only [scloneV]
    omega
theorem scloneF_mono : ∀ (fs : List (String × DVal)) (c : Nat), c ≤ (scloneF fs c).2
  | [], _ => le_refl _
  | (k, v) :: fs, c => by
    have h1 := scloneV_mono v c
    have h2 := scloneF_mono fs (scloneV v c).2
    simp only [scloneF]
    omega
end

mutual
theorem scloneV_ids_ge : ∀ (v : DVal) (c : Nat), ∀ t ∈ idsV (scloneV v c).1, c ≤ t
  | .prim _, _ => by intro t ht; simp [scloneV, idsV] at ht
  | .obj i fs, c => by
    intro t ht
    simp only [scloneV, idsV, List.mem_cons] at ht
    rcases ht with rfl | ht
    · exact le_refl _
    · have := scloneF_ids_ge fs (c + 1) t ht
      omega
theorem scloneF_ids_ge : ∀ (fs : List (String × DVal)) (c : Nat),
    ∀ t ∈ idsF (scloneF fs c).1, c ≤ t
  | [], _ => by intro t ht; simp [scloneF, idsF] at ht
  | (k, v) :: fs, c => by
    intro t ht
    simp only [scloneF, idsF, List.mem_append] at ht
    rcases ht with ht | ht
    · exact scloneV_ids_ge v c t ht
    · have h1 := scloneV_mono v c
      have h2 := scloneF_ids_ge fs (scloneV v c).2 t ht
      omega
end

mutual
theorem mutV_noop : ∀ (t : Nat) (w v : DVal), t ∉ idsV v → mutV t w v = v
  | _, _, .prim _, _ => rfl
  | t, w, .obj i fs, h => by
    simp only [idsV, List.mem_cons] at h
    push_neg at h
    simp only [mutV, if_neg (Ne.symm h.1)]
    rw [mutF_noop t w fs h.2]
theorem mutF_noop : ∀ (t : Nat) (w : DVal) (fs : List (String × DVal)),
    t ∉ idsF fs → mutF t w fs = fs
  | _, _, [], _ => rfl
  | t, w, (k, v) :: fs, h => by
    simp only [idsF, List.mem_append] at h
    push_neg at h
    simp only [mutF]
    rw [mutV_noop t w v h.1, mutF_noop t w fs h.2]
end

mutual
theorem scloneV_strip : ∀ (v : DVal) (c : Nat), stripV (scloneV v c).1 = stripV v
  | .prim _, _ => rfl
  | .obj i fs, c => by
    simp only [scloneV, stripV]
    rw [scloneF_strip fs (c + 1)]
theorem scloneF_strip : ∀ (fs : List (String × DVal)) (c : Nat),
    stripF (scloneF fs c).1 = stripF fs
  | [], _ => rfl
  | (k, v) :: fs, c => by
    simp only [scloneF, stripF]
    rw [scloneV_strip v c, scloneF_strip fs (scloneV v c).2]
end

end DC

/-- Concrete slice state for the C5 counterexample: one container-valued
field `"o"` whose object has identity 0. -/
def c5State : DC.DState := [("o", DC.DVal.obj 0 [])]

/-- Counterexample for C5 as stated: in the class-based variant, `get(key)`
of a container-typed field returns `this._state[key]` itself (src/index.ts
lines 61-63), not a deep copy — mutating the returned object through its
identity does change the slice's internal state. -/
theorem C5_get_counterexample :
    ¬ (∀ v, DC.getD c5State "o" = some v →
        ∀ t ∈ DC.idsV v, ∀ w, DC.mutF t w c5State = c5State) := by
  intro h
  have hc := h (DC.DVal.obj 0 []) rfl 0 (by simp [DC.idsV])
    (DC.DVal.obj 0 [("a", DC.DVal.prim 1)])
  simp [DC.mutF, DC.mutV, c5State] at hc

/-- C5 (amended) — Deep-copy reads (`SliceHandle.getAll`, src/index.ts lines
65-67): `getAll()` returns an independent deep copy of the slice state —
when every identity stored in the state is below the allocation counter,
every identity reachable from the returned clone is fresh, so mutating the
returned object through any of its identities leaves the internal state
unchanged, and the clone has the same content with identities erased.
`get(key)`, by contrast, returns the live stored value in this variant
(see the counterexample), so only `getAll` satisfies the deep-copy
guarantee. -/
theorem C5_getAll_deep_copy (st : DC.DState) (c : Nat)
    (hfresh : ∀ i ∈ DC.idsF st, i < c) :
    (∀ t ∈ DC.idsF (DC.getAllD st c).1, ∀ w, DC.mutF t w st = st) ∧
    DC.stripF (DC.getAllD st c).1 = DC.stripF st := by
  constructor
  · intro t ht w
    apply DC.mutF_noop
    intro hmem
    have h1 := DC.scloneF_ids_ge st c t ht
    have h2 := hfresh t hmem
    omega
  · exact DC.scloneF_strip st c

/-- Witness for the amended C5 at a concrete nested state: the clone's root
object gets the fresh identity 2, mutating through it leaves the internal
state untouched, and the clone's content matches. -/
theorem C5_getAll_deep_copy_witness :
    DC.mutF 2 (DC.DVal.prim 9) [("o", DC.DVal.obj 0 [("x", DC.DVal.obj 1 [])])]
      = [("o", DC.DVal.obj 0 [("x", DC.DVal.obj 1 [])])] ∧
    DC.stripF (DC.getAllD [("o", DC.DVal.obj 0 [("x", DC.DVal.obj 1 [])])] 2).1
      = DC.stripF [("o", DC.DVal.obj 0 [("x", DC.DVal.obj 1 [])])] := by
  have h := C5_getAll_deep_copy [("o", DC.DVal.obj 0 [("x", DC.DVal.obj 1 [])])] 2
    (by simp [DC.idsF, DC.idsV])
  exact ⟨h.1 2 (by simp [DC.getAllD, DC.scloneF, DC.scloneV, DC.idsF, DC.idsV])
    (DC.DVal.prim 9), h.2⟩
